import Mathlib

/-!
Verification of the skip list implementation in skiplist.go.

The Go code mutates heap-allocated nodes through pointers.  We embed it
shallowly: a pointer `*Node[T]` becomes an index into a heap `List (Node T)`,
and `nil` becomes `none`.  Every loop of the source is a structurally
recursive function; the two unbounded pointer chases (the `for ... != nil`
walks) take an explicit fuel, always instantiated with the heap size, which
suffices in every well-formed state.  The comparator, which Go stores in the
`SkipList` struct at construction time, is passed explicitly to each
operation; the `sync.RWMutex` only serializes access and has no sequential
meaning.  The random level drawn by `randomLevel()` (`rand.Intn(s.MaxLevel)`,
a uniform draw from `[0, maxLevel)`) becomes an explicit argument `rLevel` of
the insertion operation, universally quantified in the theorems together with
the hypothesis `rLevel < maxLevel` that `rand.Intn` guarantees.
-/

set_option maxHeartbeats 1000000

universe u

namespace Skiplist

/-- `Node[T]` of skiplist.go: the stored datum and the per-level forward
pointers (`Forward[i]` is the next node at level `i`, `none` for Go `nil`). -/
structure Node (T : Type u) where
  data : T
  forward : List (Option Nat)

/-- The heap of allocated nodes; a Go pointer is an index into it. -/
abbrev Heap (T : Type u) := List (Node T)

variable {T : Type u}

/-- Dereference a node id.  In every reachable state all dereferenced ids are
in range; the default is never produced by the operations below. -/
def nodeAt [Inhabited T] (h : Heap T) (id : Nat) : Node T :=
  (h[id]?).getD { data := default, forward := [] }

/-- `node.Data`. -/
def dataOf [Inhabited T] (h : Heap T) (id : Nat) : T :=
  (nodeAt h id).data

/-- `len(node.Forward)`, i.e. one more than the node's top level. -/
def heightOf [Inhabited T] (h : Heap T) (id : Nat) : Nat :=
  (nodeAt h id).forward.length

/-- `node.Forward[i]`. -/
def fwd [Inhabited T] (h : Heap T) (id i : Nat) : Option Nat :=
  ((nodeAt h id).forward).getD i none

/-- `node.Forward[i] = v` (in-place pointer write). -/
def setFwd (h : Heap T) (id i : Nat) (v : Option Nat) : Heap T :=
  match h[id]? with
  | some nd => h.set id { nd with forward := nd.forward.set i v }
  | none => h

/-- `node.Data = v` (in-place data write). -/
def setData (h : Heap T) (id : Nat) (v : T) : Heap T :=
  match h[id]? with
  | some nd => h.set id { nd with data := v }
  | none => h

/-- `SkipList[T]` of skiplist.go (comparator and mutex handled as described in
the header comment). -/
structure SkipList (T : Type u) where
  maxLevel : Nat
  level : Nat
  header : Nat
  nodes : Heap T

/-- `New(maxLevel, cmp)`: a fresh list whose header carries the zero value of
`T` and `maxLevel+1` nil forward pointers. -/
def newList [Inhabited T] (maxLevel : Nat) : SkipList T :=
  { maxLevel := maxLevel
    level := 0
    header := 0
    nodes := [{ data := default, forward := List.replicate (maxLevel + 1) none }] }

/-- The package constant `MaxLevel = 30`. -/
def MaxLevel : Nat := 30

/-- `NewDefault(cmp)`. -/
def newDefault [Inhabited T] : SkipList T :=
  newList MaxLevel

/-- The inner `for curr.Forward[i] != nil && cmp(curr.Forward[i].Data, t) == -1`
advance loop, with explicit fuel. -/
def advanceLevel [Inhabited T] (cmp : T → T → Int) (h : Heap T) (t : T) (i : Nat) :
    Nat → Nat → Nat
  | 0, curr => curr
  | fuel + 1, curr =>
    match fwd h curr i with
    | none => curr
    | some nxt =>
      if cmp (dataOf h nxt) t = -1 then advanceLevel cmp h t i fuel nxt
      else curr

/-- The top-down walk of `Search` (no update array is recorded): runs the
advance loop at levels `i, i-1, ..., 0` and returns the final position. -/
def descend [Inhabited T] (cmp : T → T → Int) (h : Heap T) (t : T) :
    Nat → Nat → Nat
  | 0, curr => advanceLevel cmp h t 0 h.length curr
  | i + 1, curr => descend cmp h t i (advanceLevel cmp h t (i + 1) h.length curr)

/-- The top-down walk of `Delete`, recording the update array: returns the
final position together with `us` where `us[j]` is `update[j]`. -/
def descendU [Inhabited T] (cmp : T → T → Int) (h : Heap T) (t : T) :
    Nat → Nat → Nat × List Nat
  | 0, curr =>
    let c := advanceLevel cmp h t 0 h.length curr
    (c, [c])
  | i + 1, curr =>
    let c := advanceLevel cmp h t (i + 1) h.length curr
    let r := descendU cmp h t i c
    (r.1, r.2 ++ [c])

/-- The top-down walk of `Set`: like `descendU`, but after the advance loop at
each level `i`, if the successor at level `i` compares equal to `value` its
stored data is overwritten in place (`curr.Forward[i].Data = value`). -/
def descendSet [Inhabited T] (cmp : T → T → Int) (value : T) :
    Nat → Heap T → Nat → Heap T × List Nat
  | 0, h, curr =>
    let c := advanceLevel cmp h value 0 h.length curr
    let h2 :=
      match fwd h c 0 with
      | some nxt => if cmp (dataOf h nxt) value = 0 then setData h nxt value else h
      | none => h
    (h2, [c])
  | i + 1, h, curr =>
    let c := advanceLevel cmp h value (i + 1) h.length curr
    let h2 :=
      match fwd h c (i + 1) with
      | some nxt => if cmp (dataOf h nxt) value = 0 then setData h nxt value else h
      | none => h
    let r := descendSet cmp value i h2 c
    (r.1, r.2 ++ [c])

/-- The splice loop of `Set`: for `i = lo, lo+1, ...` (`k` iterations),
`n.Forward[i] = update[i].Forward[i]; update[i].Forward[i] = &n`. -/
def splice [Inhabited T] (us : List Nat) (newId : Nat) :
    Nat → Nat → Heap T → Heap T
  | _, 0, h => h
  | i, k + 1, h =>
    let u := us.getD i 0
    let h1 := setFwd h newId i (fwd h u i)
    let h2 := setFwd h1 u i (some newId)
    splice us newId (i + 1) k h2

/-- `Set(value)` with the level drawn by `randomLevel()` passed in as
`rLevel`.  Mirrors skiplist.go lines 84–126. -/
def setOp [Inhabited T] (cmp : T → T → Int) (s : SkipList T) (value : T)
    (rLevel : Nat) : SkipList T :=
  let w := descendSet cmp value s.level s.nodes s.header
  let h := w.1
  let us := w.2
  let c0 := us.getD 0 0
  let hit : Bool :=
    match fwd h c0 0 with
    | some cur => cmp (dataOf h cur) value = 0
    | none => false
  if hit then { s with nodes := h }
  else
    let us2 := if s.level < rLevel then us ++ List.replicate (rLevel - s.level) s.header else us
    let lvl2 := if s.level < rLevel then rLevel else s.level
    let newId := h.length
    let h2 := h ++ [{ data := value, forward := List.replicate (rLevel + 1) none }]
    { s with level := lvl2, nodes := splice us2 newId 0 (rLevel + 1) h2 }

/-- `Search(target)`: `some v` models `(v, nil)`, `none` models the outcome
`(zero value, ErrTargetNotFound)`. -/
def searchOp [Inhabited T] (cmp : T → T → Int) (s : SkipList T) (target : T) :
    Option T :=
  let c := descend cmp s.nodes target s.level s.header
  match fwd s.nodes c 0 with
  | some cur => if cmp (dataOf s.nodes cur) target = 0 then some (dataOf s.nodes cur) else none
  | none => none

/-- The relink loop of `Delete`: for `i = lo, ...` (`k` iterations), stop as
soon as `update[i].Forward[i] != curr`, else `update[i].Forward[i] = curr.Forward[i]`. -/
def relink [Inhabited T] (us : List Nat) (cur : Nat) :
    Nat → Nat → Heap T → Heap T
  | _, 0, h => h
  | i, k + 1, h =>
    let u := us.getD i 0
    if fwd h u i = some cur then relink us cur (i + 1) k (setFwd h u i (fwd h cur i))
    else h

/-- The level-shrink loop of `Delete`:
`for s.Level > 0 && s.Header.Forward[s.Level] == nil { s.Level-- }`. -/
def shrink [Inhabited T] (h : Heap T) (hd : Nat) : Nat → Nat
  | 0 => 0
  | l + 1 => if fwd h hd (l + 1) = none then shrink h hd l else l + 1

/-- `Delete(target)`.  Mirrors skiplist.go lines 153–183. -/
def deleteOp [Inhabited T] (cmp : T → T → Int) (s : SkipList T) (target : T) :
    SkipList T :=
  let w := descendU cmp s.nodes target s.level s.header
  let us := w.2
  let c0 := w.1
  match fwd s.nodes c0 0 with
  | none => s
  | some cur =>
    if cmp (dataOf s.nodes cur) target = 0 then
      let h2 := relink us cur 0 (s.level + 1) s.nodes
      { s with nodes := h2, level := shrink h2 s.header s.level }
    else s

/-- The `for node != nil` chain traversal of `Sorted`, collecting node ids. -/
def chainFrom [Inhabited T] (h : Heap T) : Nat → Option Nat → List Nat
  | 0, _ => []
  | _ + 1, none => []
  | fuel + 1, some id => id :: chainFrom h fuel (fwd h id 0)

/-- `Sorted()`: all stored values along the level-0 chain. -/
def sortedOp [Inhabited T] (s : SkipList T) : List T :=
  (chainFrom s.nodes s.nodes.length (fwd s.nodes s.header 0)).map (dataOf s.nodes)

/-- The counting traversal of `Len` (its own loop in the source). -/
def countFrom [Inhabited T] (h : Heap T) : Nat → Option Nat → Nat
  | 0, _ => 0
  | _ + 1, none => 0
  | fuel + 1, some id => countFrom h fuel (fwd h id 0) + 1

/-- `Len()`. -/
def lenOp [Inhabited T] (s : SkipList T) : Nat :=
  countFrom s.nodes s.nodes.length (fwd s.nodes s.header 0)

/-- `Iterator[T]`: a cursor on the level-0 chain (`current *Node[T]`). -/
structure Iterator where
  current : Option Nat

/-- `Iterate()`. -/
def iterateOp [Inhabited T] (s : SkipList T) : Iterator :=
  { current := fwd s.nodes s.header 0 }

/-- `Valid()`. -/
def Iterator.valid (it : Iterator) : Bool :=
  it.current.isSome

/-- `Next()`. -/
def nextOp [Inhabited T] (h : Heap T) (it : Iterator) : Iterator :=
  match it.current with
  | none => it
  | some id => { current := fwd h id 0 }

/-- `Data()` dereferences `i.current` unconditionally; `none` models the nil
dereference fault that Go raises when the iterator is invalid. -/
def dataOp [Inhabited T] (h : Heap T) (it : Iterator) : Option T :=
  it.current.map (dataOf h)

/-- `k` successive `Next()` calls. -/
def iterSteps [Inhabited T] (h : Heap T) : Nat → Iterator → Iterator
  | 0, it => it
  | k + 1, it => iterSteps h k (nextOp h it)

/-- The data values visited at the first `k` positions of an iteration
(stopping early if the iterator dies). -/
def iterVisit [Inhabited T] (h : Heap T) : Nat → Iterator → List T
  | 0, _ => []
  | k + 1, it =>
    match it.current with
    | none => []
    | some id => dataOf h id :: iterVisit h k (nextOp h it)

/-! ### List helpers -/

/-- Last element of a list, with default `d` for the empty list. -/
def lastD (d : Nat) : List Nat → Nat
  | [] => d
  | x :: xs => lastD x xs

lemma lastD_append (d : Nat) (l1 l2 : List Nat) :
    lastD d (l1 ++ l2) = lastD (lastD d l1) l2 := by
  induction l1 generalizing d with
  | nil => rfl
  | cons x xs ih => simp [lastD, ih]

lemma lastD_mem (d : Nat) (l : List Nat) : lastD d l = d ∨ lastD d l ∈ l := by
  induction l generalizing d with
  | nil => exact Or.inl (by trivial)
  | cons x xs ih =>
    rcases ih x with h | h
    · exact Or.inr (by simp [lastD, h])
    · exact Or.inr (by simp [lastD, h])

lemma lastD_of_ne_nil (d d' : Nat) (l : List Nat) (h : l ≠ []) :
    lastD d l = lastD d' l := by
  cases l with
  | nil => exact absurd rfl h
  | cons x xs => rfl

/-- `getD` on the left part of an append. -/
lemma getD_append_left (l1 l2 : List Nat) (j d : Nat) (h : j < l1.length) :
    (l1 ++ l2).getD j d = l1.getD j d := by
  simp [List.getD_eq_getElem?_getD, List.getElem?_append, h]

lemma getD_append_right (l1 l2 : List Nat) (j d : Nat) (h : l1.length ≤ j) :
    (l1 ++ l2).getD j d = l2.getD (j - l1.length) d := by
  simp [List.getD_eq_getElem?_getD, List.getElem?_append_right h]

/-- A list of distinct naturals all below `n` has length at most `n`. -/
lemma nodup_length_le (l : List Nat) (n : Nat) (hd : l.Nodup)
    (hb : ∀ x ∈ l, x < n) : l.length ≤ n := by
  have hsub : l ⊆ List.range n := fun x hx => List.mem_range.2 (hb x hx)
  simpa using (List.subperm_of_subset hd hsub).length_le

/-! ### Heap observables under the primitive mutations -/

lemma length_setFwd (h : Heap T) (u i : Nat) (v : Option Nat) :
    (setFwd h u i v).length = h.length := by
  unfold setFwd
  cases hc : h[u]? with
  | none => rfl
  | some nd => simp

lemma length_setData (h : Heap T) (u : Nat) (v : T) :
    (setData h u v).length = h.length := by
  unfold setData
  cases hc : h[u]? with
  | none => rfl
  | some nd => simp

lemma nodeAt_set_ne [Inhabited T] (h : Heap T) (u : Nat) (nd : Node T) (id : Nat)
    (hne : u ≠ id) : nodeAt (h.set u nd) id = nodeAt h id := by
  unfold nodeAt
  rw [List.getElem?_set_ne hne]

lemma dataOf_setFwd [Inhabited T] (h : Heap T) (u i : Nat) (v : Option Nat) (id : Nat) :
    dataOf (setFwd h u i v) id = dataOf h id := by
  unfold setFwd
  cases hc : h[u]? with
  | none => rfl
  | some nd =>
    by_cases hu : u = id
    · subst hu
      unfold dataOf nodeAt
      have hlt : u < h.length := (List.getElem?_eq_some.1 hc).1
      rw [List.getElem?_set_eq_of_lt _ hlt]
      simp [hc]
    · unfold dataOf
      rw [nodeAt_set_ne _ _ _ _ hu]

lemma heightOf_setFwd [Inhabited T] (h : Heap T) (u i : Nat) (v : Option Nat) (id : Nat) :
    heightOf (setFwd h u i v) id = heightOf h id := by
  unfold setFwd
  cases hc : h[u]? with
  | none => rfl
  | some nd =>
    by_cases hu : u = id
    · subst hu
      unfold heightOf nodeAt
      have hlt : u < h.length := (List.getElem?_eq_some.1 hc).1
      rw [List.getElem?_set_eq_of_lt _ hlt]
      simp [hc]
    · unfold heightOf
      rw [nodeAt_set_ne _ _ _ _ hu]

lemma dataOf_setData [Inhabited T] (h : Heap T) (u : Nat) (v : T) (id : Nat) :
    dataOf (setData h u v) id = if u = id ∧ u < h.length then v else dataOf h id := by
  unfold setData
  cases hc : h[u]? with
  | none =>
    have : ¬ u < h.length := by
      simpa using List.getElem?_eq_none_iff.1 hc
    simp [this]
  | some nd =>
    have hlt : u < h.length := (List.getElem?_eq_some.1 hc).1
    by_cases hu : u = id
    · subst hu
      unfold dataOf nodeAt
      rw [List.getElem?_set_eq_of_lt _ hlt]
      simp [hlt]
    · unfold dataOf
      rw [nodeAt_set_ne _ _ _ _ hu]
      simp [hu]

lemma heightOf_setData [Inhabited T] (h : Heap T) (u : Nat) (v : T) (id : Nat) :
    heightOf (setData h u v) id = heightOf h id := by
  unfold setData
  cases hc : h[u]? with
  | none => rfl
  | some nd =>
    by_cases hu : u = id
    · subst hu
      unfold heightOf nodeAt
      have hlt : u < h.length := (List.getElem?_eq_some.1 hc).1
      rw [List.getElem?_set_eq_of_lt _ hlt]
      simp [hc]
    · unfold heightOf
      rw [nodeAt_set_ne _ _ _ _ hu]

lemma fwd_setData [Inhabited T] (h : Heap T) (u : Nat) (v : T) (id i : Nat) :
    fwd (setData h u v) id i = fwd h id i := by
  unfold setData
  cases hc : h[u]? with
  | none => rfl
  | some nd =>
    by_cases hu : u = id
    · subst hu
      unfold fwd nodeAt
      have hlt : u < h.length := (List.getElem?_eq_some.1 hc).1
      rw [List.getElem?_set_eq_of_lt _ hlt]
      simp [hc]
    · unfold fwd
      rw [nodeAt_set_ne _ _ _ _ hu]

lemma fwd_setFwd [Inhabited T] (h : Heap T) (u i : Nat) (v : Option Nat) (id j : Nat) :
    fwd (setFwd h u i v) id j =
      if u = id ∧ i = j ∧ u < h.length ∧ i < heightOf h u then v else fwd h id j := by
  unfold setFwd
  cases hc : h[u]? with
  | none =>
    have : ¬ u < h.length := by
      simpa using List.getElem?_eq_none_iff.1 hc
    simp [this]
  | some nd =>
    have hlt : u < h.length := (List.getElem?_eq_some.1 hc).1
    have hht : heightOf h u = nd.forward.length := by
      unfold heightOf nodeAt
      simp [hc]
    by_cases hu : u = id
    · subst hu
      unfold fwd nodeAt
      rw [List.getElem?_set_eq_of_lt _ hlt]
      simp only [Option.getD_some]
      by_cases hij : i = j
      · subst hij
        by_cases hlen : i < nd.forward.length
        · simp only [hlt, hlen, hht, and_true, ite_true, true_and]
          simp [List.getD_eq_getElem?_getD, List.getElem?_set_eq_of_lt _ hlen]
        · rw [List.set_eq_of_length_le (Nat.le_of_not_lt hlen)]
          simp [hht, hlen, hc]
      · simp only [hij, false_and, and_false, ite_false]
        simp [List.getD_eq_getElem?_getD, List.getElem?_set_ne hij, hc]
    · simp only [hu, false_and, ite_false]
      unfold fwd
      rw [nodeAt_set_ne _ _ _ _ hu]

lemma dataOf_append [Inhabited T] (h : Heap T) (nd : Node T) (id : Nat) :
    dataOf (h ++ [nd]) id = if id = h.length then nd.data else dataOf h id := by
  unfold dataOf nodeAt
  by_cases hid : id < h.length
  · simp [List.getElem?_append, hid, Nat.ne_of_lt hid]
  · by_cases he : id = h.length
    · subst he
      simp [List.getElem?_append_right (Nat.le_refl _)]
    · have h2 : h.length ≤ id := Nat.le_of_not_lt hid
      have h3 : 1 ≤ id - h.length := by omega
      rw [List.getElem?_append_right h2]
      simp only [he, ite_false]
      have h4 : ([nd] : Heap T)[id - h.length]? = none := by
        apply List.getElem?_eq_none_iff.2
        simpa using h3
      have h5 : h[id]? = none := by
        apply List.getElem?_eq_none_iff.2
        exact h2
      rw [h4, h5]

lemma heightOf_append [Inhabited T] (h : Heap T) (nd : Node T) (id : Nat) :
    heightOf (h ++ [nd]) id = if id = h.length then nd.forward.length else heightOf h id := by
  unfold heightOf nodeAt
  by_cases hid : id < h.length
  · simp [List.getElem?_append, hid, Nat.ne_of_lt hid]
  · by_cases he : id = h.length
    · subst he
      simp [List.getElem?_append_right (Nat.le_refl _)]
    · have h2 : h.length ≤ id := Nat.le_of_not_lt hid
      have h3 : 1 ≤ id - h.length := by omega
      rw [List.getElem?_append_right h2]
      simp only [he, ite_false]
      have h4 : ([nd] : Heap T)[id - h.length]? = none := by
        apply List.getElem?_eq_none_iff.2
        simpa using h3
      have h5 : h[id]? = none := by
        apply List.getElem?_eq_none_iff.2
        exact h2
      rw [h4, h5]

lemma fwd_append [Inhabited T] (h : Heap T) (nd : Node T) (id i : Nat) :
    fwd (h ++ [nd]) id i = if id = h.length then nd.forward.getD i none else fwd h id i := by
  unfold fwd nodeAt
  by_cases hid : id < h.length
  · simp [List.getElem?_append, hid, Nat.ne_of_lt hid]
  · by_cases he : id = h.length
    · subst he
      simp [List.getElem?_append_right (Nat.le_refl _)]
    · have h2 : h.length ≤ id := Nat.le_of_not_lt hid
      have h3 : 1 ≤ id - h.length := by omega
      rw [List.getElem?_append_right h2]
      simp only [he, ite_false]
      have h4 : ([nd] : Heap T)[id - h.length]? = none := by
        apply List.getElem?_eq_none_iff.2
        simpa using h3
      have h5 : h[id]? = none := by
        apply List.getElem?_eq_none_iff.2
        exact h2
      rw [h4, h5]

/-! ### Chain segments -/

/-- `ChainSeg h i p l q`: starting at node `p`, following `forward[i]` visits
exactly the nodes of `l` in order and then reaches `q`. -/
def ChainSeg [Inhabited T] (h : Heap T) (i : Nat) : Nat → List Nat → Option Nat → Prop
  | p, [], q => fwd h p i = q
  | p, x :: xs, q => fwd h p i = some x ∧ ChainSeg h i x xs q

/-- The pointer to the first node of `l`, or `q` when `l` is empty. -/
def frontOpt (l : List Nat) (q : Option Nat) : Option Nat :=
  match l with
  | [] => q
  | x :: _ => some x

lemma seg_compose [Inhabited T] (h : Heap T) (i : Nat) (p x : Nat)
    (l1 l2 : List Nat) (q : Option Nat) (h1 : ChainSeg h i p l1 (some x))
    (h2 : ChainSeg h i x l2 q) : ChainSeg h i p (l1 ++ x :: l2) q := by
  induction l1 generalizing p with
  | nil => exact ⟨h1, h2⟩
  | cons y ys ih => exact ⟨h1.1, ih y h1.2⟩

lemma seg_split [Inhabited T] (h : Heap T) (i : Nat) (p : Nat)
    (l1 l2 : List Nat) (q : Option Nat) (hs : ChainSeg h i p (l1 ++ l2) q) :
    ChainSeg h i p l1 (frontOpt l2 q) ∧ ChainSeg h i (lastD p l1) l2 q := by
  induction l1 generalizing p with
  | nil =>
    refine ⟨?_, hs⟩
    cases l2 with
    | nil => exact hs
    | cons x xs => exact hs.1
  | cons y ys ih =>
    obtain ⟨h1, h2⟩ := hs
    obtain ⟨ha, hb⟩ := ih y h2
    exact ⟨⟨h1, ha⟩, hb⟩

lemma seg_congr [Inhabited T] (h h2 : Heap T) (i : Nat) (p : Nat)
    (l : List Nat) (q : Option Nat)
    (heq : ∀ y ∈ p :: l, fwd h2 y i = fwd h y i)
    (hs : ChainSeg h i p l q) : ChainSeg h2 i p l q := by
  induction l generalizing p with
  | nil => exact (heq p (by simp)).trans hs
  | cons x xs ih =>
    refine ⟨(heq p (by simp)).trans hs.1, ih x ?_ hs.2⟩
    intro y hy
    exact heq y (by simpa using Or.inr hy)

lemma seg_last [Inhabited T] (h : Heap T) (i : Nat) (p : Nat)
    (l : List Nat) (q : Option Nat) (hs : ChainSeg h i p l q) :
    fwd h (lastD p l) i = q := by
  induction l generalizing p with
  | nil => exact hs
  | cons x xs ih => exact ih x hs.2

lemma seg_front [Inhabited T] (h : Heap T) (i : Nat) (p : Nat)
    (l : List Nat) (q : Option Nat) (hs : ChainSeg h i p l q) :
    fwd h p i = frontOpt l q := by
  cases l with
  | nil => exact hs
  | cons x xs => exact hs.1

/-- The fueled traversal reproduces a null-terminated chain. -/
lemma chainFrom_eq [Inhabited T] (h : Heap T) (p : Nat) (l : List Nat)
    (hs : ChainSeg h 0 p l none) :
    ∀ fuel, l.length ≤ fuel → chainFrom h fuel (fwd h p 0) = l := by
  induction l generalizing p with
  | nil =>
    intro fuel _
    have : fwd h p 0 = none := hs
    cases fuel <;> simp [chainFrom, this]
  | cons x xs ih =>
    intro fuel hf
    obtain ⟨h1, h2⟩ := hs
    cases fuel with
    | zero => simp at hf
    | succ f =>
      rw [h1]
      show x :: chainFrom h f (fwd h x 0) = x :: xs
      rw [ih x h2 f (by simpa using hf)]

lemma countFrom_eq_length [Inhabited T] (h : Heap T) :
    ∀ (fuel : Nat) (o : Option Nat), countFrom h fuel o = (chainFrom h fuel o).length := by
  intro fuel
  induction fuel with
  | zero => intro o; cases o <;> rfl
  | succ f ih =>
    intro o
    cases o with
    | none => rfl
    | some id => simp [countFrom, chainFrom, ih]

/-! ### Comparator laws -/

/-- The total-order laws assumed of a comparator (`Comparator[T]` must return
1, 0 or -1 and describe a total order on keys). -/
structure LawfulCmp (cmp : T → T → Int) : Prop where
  range : ∀ a b, cmp a b = -1 ∨ cmp a b = 0 ∨ cmp a b = 1
  flip : ∀ a b, cmp b a = -(cmp a b)
  lt_trans : ∀ a b c, cmp a b = -1 → cmp b c = -1 → cmp a c = -1
  eq_subst : ∀ a b c, cmp a b = 0 → cmp a c = cmp b c

namespace LawfulCmp

lemma refl {cmp : T → T → Int} (lc : LawfulCmp cmp) (a : T) : cmp a a = 0 := by
  have := lc.flip a a
  omega

lemma eq_symm {cmp : T → T → Int} (lc : LawfulCmp cmp) {a b : T}
    (h : cmp a b = 0) : cmp b a = 0 := by
  have := lc.flip a b
  omega

lemma subst_right {cmp : T → T → Int} (lc : LawfulCmp cmp) {a b c : T}
    (h : cmp b c = 0) : cmp a b = cmp a c := by
  have h1 := lc.flip b a
  have h2 := lc.flip c a
  have h3 := lc.eq_subst b c a h
  omega

lemma lt_of_lt_of_eq {cmp : T → T → Int} (lc : LawfulCmp cmp) {a b c : T}
    (h1 : cmp a b = -1) (h2 : cmp b c = 0) : cmp a c = -1 := by
  rw [← lc.subst_right h2]
  exact h1

lemma lt_of_eq_of_lt {cmp : T → T → Int} (lc : LawfulCmp cmp) {a b c : T}
    (h1 : cmp a b = 0) (h2 : cmp b c = -1) : cmp a c = -1 := by
  rw [lc.eq_subst a b c h1]
  exact h2

lemma gt_of_lt {cmp : T → T → Int} (lc : LawfulCmp cmp) {a b : T}
    (h : cmp a b = -1) : cmp b a = 1 := by
  have := lc.flip a b
  omega

lemma gt_iff_lt {cmp : T → T → Int} (lc : LawfulCmp cmp) {a b : T} :
    cmp a b = 1 ↔ cmp b a = -1 := by
  have := lc.flip b a
  omega

end LawfulCmp

/-! ### The well-formedness invariant -/

/-- The nodes of `l` that participate in level `i`. -/
def hFilter [Inhabited T] (h : Heap T) (i : Nat) (l : List Nat) : List Nat :=
  l.filter (fun id => decide (i < heightOf h id))

/-- Well-formedness of a skip-list state, with `ids` the level-0 chain of real
nodes.  Every state reachable from `New` by `Set` and `Delete` satisfies it. -/
structure WfIds [Inhabited T] (cmp : T → T → Int) (s : SkipList T) (ids : List Nat) : Prop where
  header0 : s.header = 0
  hlen : 0 < s.nodes.length
  hfwdlen : heightOf s.nodes 0 = s.maxLevel + 1
  maxpos : 1 ≤ s.maxLevel
  lvlmax : s.level < s.maxLevel
  nodup : (0 :: ids).Nodup
  bounds : ∀ id ∈ ids, id < s.nodes.length
  sorted : ids.Pairwise (fun a b => cmp (dataOf s.nodes a) (dataOf s.nodes b) = -1)
  hpos : ∀ id ∈ ids, 1 ≤ heightOf s.nodes id
  hbound : ∀ id ∈ ids, heightOf s.nodes id ≤ s.level + 1
  chains : ∀ i, ChainSeg s.nodes i 0 (hFilter s.nodes i ids) none
  top : s.level = 0 ∨ ∃ id ∈ ids, s.level < heightOf s.nodes id

/-- Well-formedness (the level-0 chain existentially packaged). -/
def Wf [Inhabited T] (cmp : T → T → Int) (s : SkipList T) : Prop :=
  ∃ ids, WfIds cmp s ids

lemma WfIds.ids_nodup [Inhabited T] {cmp : T → T → Int} {s : SkipList T}
    {ids : List Nat} (wf : WfIds cmp s ids) : ids.Nodup :=
  (List.nodup_cons.1 wf.nodup).2

lemma WfIds.zero_not_mem [Inhabited T] {cmp : T → T → Int} {s : SkipList T}
    {ids : List Nat} (wf : WfIds cmp s ids) : 0 ∉ ids :=
  (List.nodup_cons.1 wf.nodup).1

lemma WfIds.ids_length_le [Inhabited T] {cmp : T → T → Int} {s : SkipList T}
    {ids : List Nat} (wf : WfIds cmp s ids) : ids.length ≤ s.nodes.length :=
  nodup_length_le ids s.nodes.length wf.ids_nodup wf.bounds

lemma WfIds.chain0 [Inhabited T] {cmp : T → T → Int} {s : SkipList T}
    {ids : List Nat} (wf : WfIds cmp s ids) : ChainSeg s.nodes 0 0 ids none := by
  have h := wf.chains 0
  have heq : hFilter s.nodes 0 ids = ids := by
    apply List.filter_eq_self.2
    intro id hid
    simpa using wf.hpos id hid
  rwa [heq] at h

/-- `Sorted()` of a well-formed state is the data along the level-0 chain. -/
lemma WfIds.sortedOp_eq [Inhabited T] {cmp : T → T → Int} {s : SkipList T}
    {ids : List Nat} (wf : WfIds cmp s ids) :
    sortedOp s = ids.map (dataOf s.nodes) := by
  unfold sortedOp
  rw [wf.header0, chainFrom_eq s.nodes 0 ids wf.chain0 s.nodes.length wf.ids_length_le]

/-- `Len()` of a well-formed state is the chain length. -/
lemma WfIds.lenOp_eq [Inhabited T] {cmp : T → T → Int} {s : SkipList T}
    {ids : List Nat} (wf : WfIds cmp s ids) : lenOp s = ids.length := by
  unfold lenOp
  rw [countFrom_eq_length, wf.header0,
    chainFrom_eq s.nodes 0 ids wf.chain0 s.nodes.length wf.ids_length_le]

/-! ### Walk correctness -/

lemma lastD_mem_of_ne_nil (d : Nat) (l : List Nat) (h : l ≠ []) :
    lastD d l ∈ l := by
  induction l generalizing d with
  | nil => exact absurd rfl h
  | cons x xs ih =>
    cases hxs : xs with
    | nil => simp [lastD]
    | cons y ys =>
      subst hxs
      exact List.mem_cons_of_mem x (ih x (by simp))

/-- The nodes of `l` whose data compares strictly below `t`. -/
def ltIds [Inhabited T] (cmp : T → T → Int) (h : Heap T) (t : T) (l : List Nat) : List Nat :=
  l.filter (fun id => decide (cmp (dataOf h id) t = -1))

/-- The nodes of `l` whose data does not compare strictly below `t`. -/
def geIds [Inhabited T] (cmp : T → T → Int) (h : Heap T) (t : T) (l : List Nat) : List Nat :=
  l.filter (fun id => ! decide (cmp (dataOf h id) t = -1))

/-- The predecessor of `t` at level `j`: the last level-`j` node below `t`
(`0`, the header, if there is none). -/
def predAt [Inhabited T] (cmp : T → T → Int) (h : Heap T) (t : T) (l : List Nat) (j : Nat) : Nat :=
  lastD 0 (hFilter h j (ltIds cmp h t l))

lemma mem_hFilter [Inhabited T] {h : Heap T} {i : Nat} {l : List Nat} {x : Nat} :
    x ∈ hFilter h i l ↔ x ∈ l ∧ i < heightOf h x := by
  simp [hFilter]

lemma mem_ltIds [Inhabited T] {cmp : T → T → Int} {h : Heap T} {t : T} {l : List Nat} {x : Nat} :
    x ∈ ltIds cmp h t l ↔ x ∈ l ∧ cmp (dataOf h x) t = -1 := by
  simp [ltIds]

lemma mem_geIds [Inhabited T] {cmp : T → T → Int} {h : Heap T} {t : T} {l : List Nat} {x : Nat} :
    x ∈ geIds cmp h t l ↔ x ∈ l ∧ ¬ cmp (dataOf h x) t = -1 := by
  simp [geIds]

lemma hFilter_append [Inhabited T] (h : Heap T) (i : Nat) (l1 l2 : List Nat) :
    hFilter h i (l1 ++ l2) = hFilter h i l1 ++ hFilter h i l2 := by
  simp [hFilter]

lemma hFilter_succ_hFilter [Inhabited T] (h : Heap T) (i : Nat) (l : List Nat) :
    hFilter h (i + 1) (hFilter h i l) = hFilter h (i + 1) l := by
  unfold hFilter
  rw [List.filter_filter]
  apply List.filter_congr
  intro x _
  by_cases hx : i + 1 < heightOf h x
  · have : i < heightOf h x := by omega
    simp [hx, this]
  · simp [hx]

lemma hFilter_sublist [Inhabited T] (h : Heap T) (i : Nat) (l : List Nat) :
    (hFilter h i l).Sublist l :=
  List.filter_sublist l

lemma ltIds_sublist [Inhabited T] (cmp : T → T → Int) (h : Heap T) (t : T) (l : List Nat) :
    (ltIds cmp h t l).Sublist l :=
  List.filter_sublist l

lemma geIds_sublist [Inhabited T] (cmp : T → T → Int) (h : Heap T) (t : T) (l : List Nat) :
    (geIds cmp h t l).Sublist l :=
  List.filter_sublist l

/-- A sorted list splits into its strictly-below-`t` prefix and the rest. -/
lemma sorted_filter_split [Inhabited T] {cmp : T → T → Int} (lc : LawfulCmp cmp)
    (h : Heap T) (t : T) :
    ∀ (l : List Nat), l.Pairwise (fun a b => cmp (dataOf h a) (dataOf h b) = -1) →
      l = ltIds cmp h t l ++ geIds cmp h t l := by
  intro l hs
  induction l with
  | nil => rfl
  | cons x xs ih =>
    obtain ⟨hx, hxs⟩ := List.pairwise_cons.1 hs
    by_cases hP : cmp (dataOf h x) t = -1
    · have : ltIds cmp h t (x :: xs) = x :: ltIds cmp h t xs := by
        simp [ltIds, hP]
      rw [this]
      have : geIds cmp h t (x :: xs) = geIds cmp h t xs := by
        simp [geIds, hP]
      rw [this]
      simpa using ih hxs
    · have hall : ∀ y ∈ xs, ¬ cmp (dataOf h y) t = -1 := by
        intro y hy hyt
        exact hP (lc.lt_trans _ _ _ (hx y hy) hyt)
      have h1 : ltIds cmp h t (x :: xs) = [] := by
        simp only [ltIds, List.filter_eq_nil_iff]
        intro y hy
        rcases List.mem_cons.1 hy with rfl | hy2
        · simpa using hP
        · simpa using hall y hy2
      have h2 : geIds cmp h t (x :: xs) = x :: xs := by
        apply List.filter_eq_self.2
        intro y hy
        rcases List.mem_cons.1 hy with rfl | hy2
        · simpa using hP
        · simpa using hall y hy2
      rw [h1, h2]
      rfl

/-- Two splits of the same list at a boundary marked by a predicate agree. -/
lemma splits_eq (P : Nat → Prop) :
    ∀ (l1 L l2 B : List Nat), l1 ++ l2 = L ++ B →
      (∀ x ∈ l1, P x) → (∀ x, frontOpt l2 none = some x → ¬ P x) →
      (∀ x ∈ L, P x) → (∀ x, frontOpt B none = some x → ¬ P x) →
      l1 = L := by
  intro l1
  induction l1 with
  | nil =>
    intro L l2 B heq _ h2 hL _
    cases L with
    | nil => rfl
    | cons y L2 =>
      exfalso
      apply h2 y _ (hL y (by simp))
      simp at heq
      rw [heq]
      rfl
  | cons x l1' ih =>
    intro L l2 B heq h1 h2 hL hB
    cases L with
    | nil =>
      exfalso
      apply hB x _ (h1 x (by simp))
      simp at heq
      rw [← heq]
      rfl
    | cons y L2 =>
      simp only [List.cons_append, List.cons.injEq] at heq
      obtain ⟨rfl, heq2⟩ := heq
      rw [ih L2 l2 B heq2 (fun z hz => h1 z (by simp [hz])) h2
        (fun z hz => hL z (by simp [hz])) hB]

/-- The advance loop splits its chain at the first element not below `t`. -/
lemma advance_spec [Inhabited T] (cmp : T → T → Int) (h : Heap T) (t : T) (i : Nat) :
    ∀ (l : List Nat) (p : Nat) (fuel : Nat), ChainSeg h i p l none → l.length ≤ fuel →
      ∃ l1 l2, l = l1 ++ l2 ∧ (∀ x ∈ l1, cmp (dataOf h x) t = -1) ∧
        advanceLevel cmp h t i fuel p = lastD p l1 ∧
        (∀ x, frontOpt l2 none = some x → ¬ cmp (dataOf h x) t = -1) := by
  intro l
  induction l with
  | nil =>
    intro p fuel hs _
    refine ⟨[], [], rfl, by simp, ?_, by simp [frontOpt]⟩
    have hn : fwd h p i = none := hs
    cases fuel with
    | zero => rfl
    | succ f => simp [advanceLevel, hn, lastD]
  | cons x xs ih =>
    intro p fuel hs hf
    obtain ⟨h1, h2⟩ := hs
    cases fuel with
    | zero => simp at hf
    | succ f =>
      by_cases hx : cmp (dataOf h x) t = -1
      · obtain ⟨l1, l2, heq, hall, hadv, hfr⟩ := ih x f h2 (by simpa using hf)
        refine ⟨x :: l1, l2, by simp [heq], ?_, ?_, hfr⟩
        · intro y hy
          rcases List.mem_cons.1 hy with rfl | hy2
          · exact hx
          · exact hall y hy2
        · show advanceLevel cmp h t i (f + 1) p = lastD p (x :: l1)
          simp only [advanceLevel, h1, hx, ite_true]
          exact hadv
      · refine ⟨[], x :: xs, rfl, by simp, ?_, ?_⟩
        · show advanceLevel cmp h t i (f + 1) p = lastD p []
          simp only [advanceLevel, h1, hx, ite_false, lastD]
        · intro y hy
          have hxy : x = y := by
            simpa [frontOpt] using hy
          subst hxy
          exact hx

/-- One full level of the top-down walk: starting from the level-`(i+1)`
predecessor, the advance loop at level `i` ends at the level-`i` predecessor. -/
lemma advance_one [Inhabited T] {cmp : T → T → Int} {s : SkipList T} {ids : List Nat}
    (lc : LawfulCmp cmp) (wf : WfIds cmp s ids) (t : T) (i : Nat) (curr : Nat)
    (hcurr : curr = predAt cmp s.nodes t ids (i + 1)) :
    advanceLevel cmp s.nodes t i s.nodes.length curr = predAt cmp s.nodes t ids i := by
  set h := s.nodes with hh
  set A := ltIds cmp h t ids with hA
  set B := geIds cmp h t ids with hB
  have hsplit : ids = A ++ B := sorted_filter_split lc h t ids wf.sorted
  set L := hFilter h i A with hL
  set Bf := hFilter h i B with hBf
  have hchain : ChainSeg h i 0 (L ++ Bf) none := by
    have := wf.chains i
    rwa [show hFilter h i ids = L ++ Bf by rw [hsplit, hFilter_append]] at this
  have hLmem : ∀ x ∈ L, cmp (dataOf h x) t = -1 := by
    intro x hx
    exact (mem_ltIds.1 (mem_hFilter.1 hx).1).2
  have hBfmem : ∀ x, frontOpt Bf none = some x → ¬ cmp (dataOf h x) t = -1 := by
    intro x hx
    have hxB : x ∈ Bf := by
      cases hBf2 : Bf with
      | nil => rw [hBf2] at hx; exact absurd hx (by simp [frontOpt])
      | cons y ys =>
        rw [hBf2] at hx
        have hyx : y = x := by simpa [frontOpt] using hx
        subst hyx
        simp
    exact (mem_geIds.1 (mem_hFilter.1 hxB).1).2
  have hlen : (L ++ Bf).length ≤ h.length := by
    calc (L ++ Bf).length = (hFilter h i ids).length := by
          rw [hsplit, hFilter_append]
      _ ≤ ids.length := (hFilter_sublist h i ids).length_le
      _ ≤ h.length := wf.ids_length_le
  have hfl : hFilter h (i + 1) A = hFilter h (i + 1) L := by
    rw [hL, hFilter_succ_hFilter]
  have hgoal : predAt cmp h t ids i = lastD 0 L := rfl
  by_cases hc : hFilter h (i + 1) L = []
  · have hcurr0 : curr = 0 := by
      rw [hcurr]
      unfold predAt
      rw [hfl, hc]
      rfl
    subst hcurr0
    obtain ⟨l1, l2, heq, hall, hadv, hfr⟩ :=
      advance_spec cmp h t i (L ++ Bf) 0 h.length hchain hlen
    have hl1 : l1 = L :=
      splits_eq (fun x => cmp (dataOf h x) t = -1) l1 L l2 Bf heq.symm hall hfr hLmem hBfmem
    rw [hgoal, hadv, hl1]
  · have hmem : curr ∈ L := by
      rw [hcurr]
      unfold predAt
      rw [hfl]
      exact (hFilter_sublist h (i+1) L).subset (lastD_mem_of_ne_nil 0 _ hc)
    obtain ⟨L1, L2, hLsplit⟩ := List.append_of_mem hmem
    have hchain2 : ChainSeg h i curr (L2 ++ Bf) none := by
      have : ChainSeg h i 0 (((L1 ++ [curr]) ++ (L2 ++ Bf))) none := by
        rw [show (L1 ++ [curr]) ++ (L2 ++ Bf) = (L1 ++ curr :: L2) ++ Bf by simp]
        rwa [← hLsplit]
      have hsp := (seg_split h i 0 (L1 ++ [curr]) (L2 ++ Bf) none this).2
      rwa [show lastD 0 (L1 ++ [curr]) = curr by rw [lastD_append]; rfl] at hsp
    have hlen2 : (L2 ++ Bf).length ≤ h.length := by
      have : L2.length ≤ L.length := by
        rw [hLsplit]
        simp
        omega
      simp only [List.length_append] at hlen ⊢
      omega
    obtain ⟨l1, l2, heq, hall, hadv, hfr⟩ :=
      advance_spec cmp h t i (L2 ++ Bf) curr h.length hchain2 hlen2
    have hL2mem : ∀ x ∈ L2, cmp (dataOf h x) t = -1 := by
      intro x hx
      exact hLmem x (by rw [hLsplit]; simp [hx])
    have hl1 : l1 = L2 :=
      splits_eq (fun x => cmp (dataOf h x) t = -1) l1 L2 l2 Bf heq.symm hall hfr hL2mem hBfmem
    rw [hgoal, hadv, hl1, hLsplit]
    rw [show L1 ++ curr :: L2 = (L1 ++ [curr]) ++ L2 by simp]
    rw [lastD_append, lastD_append]
    rfl

/-- Above the current level the walk has no predecessors: everything is the
header. -/
lemma predAt_top [Inhabited T] {cmp : T → T → Int} {s : SkipList T} {ids : List Nat}
    (wf : WfIds cmp s ids) (t : T) :
    predAt cmp s.nodes t ids (s.level + 1) = 0 := by
  unfold predAt
  have : hFilter s.nodes (s.level + 1) (ltIds cmp s.nodes t ids) = [] := by
    simp only [hFilter, List.filter_eq_nil_iff]
    intro x hx
    have hmem : x ∈ ids := (mem_ltIds.1 hx).1
    have := wf.hbound x hmem
    simp
    omega
  rw [this]
  rfl

/-- Full characterization of the walk with update array. -/
lemma descendU_run [Inhabited T] {cmp : T → T → Int} {s : SkipList T} {ids : List Nat}
    (lc : LawfulCmp cmp) (wf : WfIds cmp s ids) (t : T) :
    ∀ (i : Nat) (curr : Nat), curr = predAt cmp s.nodes t ids (i + 1) →
      (descendU cmp s.nodes t i curr).2.length = i + 1 ∧
      (∀ j, j ≤ i → (descendU cmp s.nodes t i curr).2.getD j 0 = predAt cmp s.nodes t ids j) ∧
      (descendU cmp s.nodes t i curr).1 = predAt cmp s.nodes t ids 0 := by
  intro i
  induction i with
  | zero =>
    intro curr hcurr
    have hadv := advance_one lc wf t 0 curr hcurr
    refine ⟨rfl, ?_, hadv⟩
    intro j hj
    interval_cases j
    exact hadv
  | succ i ih =>
    intro curr hcurr
    have hadv := advance_one lc wf t (i + 1) curr hcurr
    set c := advanceLevel cmp s.nodes t (i + 1) s.nodes.length curr with hc
    obtain ⟨hlen, hget, hfin⟩ := ih c hadv
    refine ⟨?_, ?_, ?_⟩
    · show ((descendU cmp s.nodes t i c).2 ++ [c]).length = i + 2
      simp [hlen]
    · intro j hj
      show ((descendU cmp s.nodes t i c).2 ++ [c]).getD j 0 = _
      rcases Nat.lt_or_ge j (i + 1) with hlt | hge
      · rw [getD_append_left _ _ _ _ (by omega)]
        exact hget j (by omega)
      · have hje : j = i + 1 := by omega
        subst hje
        rw [getD_append_right _ _ _ _ (by omega), hlen]
        simpa using hadv
    · exact hfin

/-- The pure walk of `Search` coincides with the final position of the
recorded walk. -/
lemma descend_eq_descendU [Inhabited T] (cmp : T → T → Int) (h : Heap T) (t : T) :
    ∀ (i : Nat) (curr : Nat), descend cmp h t i curr = (descendU cmp h t i curr).1 := by
  intro i
  induction i with
  | zero => intro curr; rfl
  | succ i ih => intro curr; exact ih _

/-- The chain hanging off the level-`j` predecessor: the level-`j` nodes not
below `t`. -/
lemma predAt_chain [Inhabited T] {cmp : T → T → Int} {s : SkipList T} {ids : List Nat}
    (lc : LawfulCmp cmp) (wf : WfIds cmp s ids) (t : T) (j : Nat) :
    ChainSeg s.nodes j (predAt cmp s.nodes t ids j)
      (hFilter s.nodes j (geIds cmp s.nodes t ids)) none := by
  have hsplit : ids = ltIds cmp s.nodes t ids ++ geIds cmp s.nodes t ids :=
    sorted_filter_split lc s.nodes t ids wf.sorted
  have := wf.chains j
  rw [hsplit, hFilter_append] at this
  exact (seg_split s.nodes j 0 _ _ none this).2

/-! ### Search characterization -/

lemma pairwise_mem_cases {R : Nat → Nat → Prop} :
    ∀ (l : List Nat), l.Pairwise R → ∀ a ∈ l, ∀ b ∈ l, a = b ∨ R a b ∨ R b a := by
  intro l hl
  induction l with
  | nil => simp
  | cons x xs ih =>
    obtain ⟨hx, hxs⟩ := List.pairwise_cons.1 hl
    intro a ha b hb
    rcases List.mem_cons.1 ha with rfl | ha2
    · rcases List.mem_cons.1 hb with rfl | hb2
      · exact Or.inl (by trivial)
      · exact Or.inr (Or.inl (hx b hb2))
    · rcases List.mem_cons.1 hb with rfl | hb2
      · exact Or.inr (Or.inr (hx a ha2))
      · exact ih hxs a ha2 b hb2

lemma geIds_sorted [Inhabited T] {cmp : T → T → Int} {s : SkipList T} {ids : List Nat}
    (wf : WfIds cmp s ids) (t : T) :
    (geIds cmp s.nodes t ids).Pairwise
      (fun a b => cmp (dataOf s.nodes a) (dataOf s.nodes b) = -1) :=
  wf.sorted.sublist (List.filter_sublist ids)

/-- A key equal to `t` is stored iff the first not-below node is equal to `t`. -/
lemma equal_mem_iff_head [Inhabited T] {cmp : T → T → Int} {s : SkipList T} {ids : List Nat}
    (lc : LawfulCmp cmp) (wf : WfIds cmp s ids) (t : T) :
    (∃ x ∈ ids, cmp (dataOf s.nodes x) t = 0) ↔
      (∃ e l2, geIds cmp s.nodes t ids = e :: l2 ∧ cmp (dataOf s.nodes e) t = 0) := by
  constructor
  · rintro ⟨x, hx, hxt⟩
    have hxB : x ∈ geIds cmp s.nodes t ids := by
      rw [mem_geIds]
      exact ⟨hx, by rw [hxt]; decide⟩
    rcases hg : geIds cmp s.nodes t ids with _ | ⟨e, l2⟩
    · rw [hg] at hxB
      simp at hxB
    · refine ⟨e, l2, rfl, ?_⟩
      rw [hg] at hxB
      rcases List.mem_cons.1 hxB with rfl | hx2
      · exact hxt
      · have hs := geIds_sorted wf t
        rw [hg] at hs
        have hrel := (List.pairwise_cons.1 hs).1 x hx2
        exfalso
        have heB : e ∈ geIds cmp s.nodes t ids := by rw [hg]; simp
        exact (mem_geIds.1 heB).2 (lc.lt_of_lt_of_eq hrel hxt)
  · rintro ⟨e, l2, hg, het⟩
    have heB : e ∈ geIds cmp s.nodes t ids := by rw [hg]; simp
    exact ⟨e, (mem_geIds.1 heB).1, het⟩

lemma hFilter_zero [Inhabited T] {cmp : T → T → Int} {s : SkipList T} {ids : List Nat}
    (wf : WfIds cmp s ids) (l : List Nat) (hsub : l.Sublist ids) :
    hFilter s.nodes 0 l = l := by
  apply List.filter_eq_self.2
  intro x hx
  have := wf.hpos x (hsub.subset hx)
  simp
  omega

/-- `Search` inspects exactly the head of the not-below suffix. -/
lemma searchOp_run [Inhabited T] {cmp : T → T → Int} {s : SkipList T} {ids : List Nat}
    (lc : LawfulCmp cmp) (wf : WfIds cmp s ids) (t : T) :
    searchOp cmp s t =
      match geIds cmp s.nodes t ids with
      | [] => none
      | e :: _ =>
        if cmp (dataOf s.nodes e) t = 0 then some (dataOf s.nodes e) else none := by
  have hdes : descend cmp s.nodes t s.level s.header = predAt cmp s.nodes t ids 0 := by
    rw [descend_eq_descendU, wf.header0]
    exact (descendU_run lc wf t s.level 0 (predAt_top wf t).symm).2.2
  have hchain := predAt_chain lc wf t 0
  rw [hFilter_zero wf (geIds cmp s.nodes t ids) (geIds_sublist cmp s.nodes t ids)] at hchain
  have hfr := seg_front s.nodes 0 _ _ none hchain
  show (match fwd s.nodes (descend cmp s.nodes t s.level s.header) 0 with
    | some cur => if cmp (dataOf s.nodes cur) t = 0 then some (dataOf s.nodes cur) else none
    | none => none) = _
  rw [hdes, hfr]
  cases hg : geIds cmp s.nodes t ids with
  | nil => rfl
  | cons e l2 => rfl

lemma searchOp_eq_some [Inhabited T] {cmp : T → T → Int} {s : SkipList T} {ids : List Nat}
    (lc : LawfulCmp cmp) (wf : WfIds cmp s ids) {t : T} {e : Nat}
    (he : e ∈ ids) (het : cmp (dataOf s.nodes e) t = 0) :
    searchOp cmp s t = some (dataOf s.nodes e) := by
  rw [searchOp_run lc wf t]
  obtain ⟨e2, l2, hg, he2t⟩ :=
    (equal_mem_iff_head lc wf t).1 ⟨e, he, het⟩
  rw [hg]
  simp only [he2t, ite_true]
  have he2 : e2 ∈ ids := by
    have : e2 ∈ geIds cmp s.nodes t ids := by rw [hg]; simp
    exact (mem_geIds.1 this).1
  have : e2 = e := by
    rcases pairwise_mem_cases ids wf.sorted e2 he2 e he with heq | hlt | hgt
    · exact heq
    · exfalso
      have := lc.lt_of_lt_of_eq hlt het
      omega
    · exfalso
      have := lc.lt_of_lt_of_eq hgt he2t
      omega
  rw [this]

lemma searchOp_eq_none [Inhabited T] {cmp : T → T → Int} {s : SkipList T} {ids : List Nat}
    (lc : LawfulCmp cmp) (wf : WfIds cmp s ids) {t : T}
    (h : ∀ x ∈ ids, cmp (dataOf s.nodes x) t ≠ 0) :
    searchOp cmp s t = none := by
  rw [searchOp_run lc wf t]
  rcases hg : geIds cmp s.nodes t ids with _ | ⟨e, l2⟩
  · rfl
  · have heB : e ∈ geIds cmp s.nodes t ids := by rw [hg]; simp
    simp [h e (mem_geIds.1 heB).1]

/-! ### The `Set` walk versus the pure walk -/

lemma descendU_len [Inhabited T] (cmp : T → T → Int) (h : Heap T) (t : T) :
    ∀ (i : Nat) (curr : Nat), (descendU cmp h t i curr).2.length = i + 1 := by
  intro i
  induction i with
  | zero => intro curr; rfl
  | succ i ih =>
    intro curr
    show ((descendU cmp h t i _).2 ++ [_]).length = i + 2
    simp [ih]

/-- Heaps with the same links and comparison-equivalent data. -/
def EquivData [Inhabited T] (cmp : T → T → Int) (h h2 : Heap T) : Prop :=
  h2.length = h.length ∧ (∀ id, heightOf h2 id = heightOf h id) ∧
  (∀ id j, fwd h2 id j = fwd h id j) ∧
  (∀ id u, cmp (dataOf h2 id) u = cmp (dataOf h id) u)

lemma equivData_refl [Inhabited T] (cmp : T → T → Int) (h : Heap T) :
    EquivData cmp h h :=
  ⟨rfl, fun _ => rfl, fun _ _ => rfl, fun _ _ => rfl⟩

lemma equivData_setData [Inhabited T] {cmp : T → T → Int} (lc : LawfulCmp cmp)
    (h : Heap T) {e : Nat} {v : T} (hev : cmp (dataOf h e) v = 0) :
    EquivData cmp h (setData h e v) := by
  refine ⟨length_setData h e v, heightOf_setData h e v, fwd_setData h e v, ?_⟩
  intro id u
  by_cases hc : e = id ∧ e < h.length
  · rw [dataOf_setData, if_pos hc]
    obtain ⟨rfl, _⟩ := hc
    exact (lc.eq_subst _ _ u hev).symm
  · rw [dataOf_setData, if_neg hc]

lemma advanceLevel_equiv [Inhabited T] {cmp : T → T → Int} {h h2 : Heap T}
    (he : EquivData cmp h h2) (t : T) (i : Nat) :
    ∀ (fuel : Nat) (p : Nat),
      advanceLevel cmp h2 t i fuel p = advanceLevel cmp h t i fuel p := by
  intro fuel
  induction fuel with
  | zero => intro p; rfl
  | succ f ih =>
    intro p
    simp only [advanceLevel]
    rw [he.2.2.1 p i]
    cases hfw : fwd h p i with
    | none => rfl
    | some nxt =>
      show (if cmp (dataOf h2 nxt) t = -1 then advanceLevel cmp h2 t i f nxt else p) =
        if cmp (dataOf h nxt) t = -1 then advanceLevel cmp h t i f nxt else p
      rw [he.2.2.2 nxt t]
      by_cases hlt : cmp (dataOf h nxt) t = -1
      · simp only [hlt, ite_true]
        exact ih nxt
      · simp [hlt]

lemma descendU_equiv [Inhabited T] {cmp : T → T → Int} {h h2 : Heap T}
    (he : EquivData cmp h h2) (t : T) :
    ∀ (i : Nat) (curr : Nat), descendU cmp h2 t i curr = descendU cmp h t i curr := by
  intro i
  induction i with
  | zero =>
    intro curr
    simp only [descendU]
    rw [he.1, advanceLevel_equiv he t 0 h.length curr]
  | succ i ih =>
    intro curr
    simp only [descendU]
    rw [he.1, advanceLevel_equiv he t (i + 1) h.length curr, ih]

lemma equivData_trans [Inhabited T] {cmp : T → T → Int} {h h2 h3 : Heap T}
    (e1 : EquivData cmp h h2) (e2 : EquivData cmp h2 h3) : EquivData cmp h h3 :=
  ⟨e2.1.trans e1.1, fun id => (e2.2.1 id).trans (e1.2.1 id),
    fun id j => (e2.2.2.1 id j).trans (e1.2.2.1 id j),
    fun id u => (e2.2.2.2 id u).trans (e1.2.2.2 id u)⟩

/-- The mutating `Set` walk only rewrites comparison-equal data in place, and
records the same update array as the pure walk. -/
lemma descendSet_obs [Inhabited T] {cmp : T → T → Int} (lc : LawfulCmp cmp) (v : T) :
    ∀ (i : Nat) (h : Heap T) (curr : Nat),
      EquivData cmp h (descendSet cmp v i h curr).1 ∧
      (descendSet cmp v i h curr).2 = (descendU cmp h v i curr).2 := by
  intro i
  induction i with
  | zero =>
    intro h curr
    simp only [descendSet, descendU]
    cases hm : fwd h (advanceLevel cmp h v 0 h.length curr) 0 with
    | none => exact ⟨equivData_refl cmp h, trivial⟩
    | some nxt =>
      by_cases hnv : cmp (dataOf h nxt) v = 0
      · simp only [hnv, ite_true]
        exact ⟨equivData_setData lc h hnv, trivial⟩
      · simp only [hnv, ite_false]
        exact ⟨equivData_refl cmp h, trivial⟩
  | succ i ih =>
    intro h curr
    simp only [descendSet, descendU]
    cases hm : fwd h (advanceLevel cmp h v (i + 1) h.length curr) (i + 1) with
    | none =>
      obtain ⟨e1, e2⟩ := ih h (advanceLevel cmp h v (i + 1) h.length curr)
      exact ⟨e1, by rw [e2]⟩
    | some nxt =>
      by_cases hnv : cmp (dataOf h nxt) v = 0
      · simp only [hnv, ite_true]
        have hstep : EquivData cmp h (setData h nxt v) := equivData_setData lc h hnv
        obtain ⟨e1, e2⟩ := ih (setData h nxt v) (advanceLevel cmp h v (i + 1) h.length curr)
        refine ⟨equivData_trans hstep e1, ?_⟩
        rw [e2, descendU_equiv hstep v i _]
      · simp only [hnv, ite_false]
        obtain ⟨e1, e2⟩ := ih h (advanceLevel cmp h v (i + 1) h.length curr)
        exact ⟨e1, by rw [e2]⟩

/-- Which data the `Set` walk may change: only nodes comparison-equal to `v`
that are the level-`j` successor of the level-`j` predecessor, and they are
overwritten with `v` itself. -/
lemma descendSet_data [Inhabited T] {cmp : T → T → Int} (lc : LawfulCmp cmp) (v : T) :
    ∀ (i : Nat) (h : Heap T) (curr : Nat) (id : Nat),
      dataOf (descendSet cmp v i h curr).1 id = dataOf h id ∨
        (cmp (dataOf h id) v = 0 ∧ dataOf (descendSet cmp v i h curr).1 id = v ∧
          ∃ j, j ≤ i ∧ fwd h ((descendU cmp h v i curr).2.getD j 0) j = some id) := by
  intro i
  induction i with
  | zero =>
    intro h curr id
    simp only [descendSet, descendU]
    cases hm : fwd h (advanceLevel cmp h v 0 h.length curr) 0 with
    | none => exact Or.inl (by trivial)
    | some nxt =>
      by_cases hnv : cmp (dataOf h nxt) v = 0
      · simp only [hnv, ite_true]
        by_cases hcase : nxt = id ∧ nxt < h.length
        · obtain ⟨rfl, hlt⟩ := hcase
          refine Or.inr ⟨hnv, ?_, 0, Nat.le_refl 0, ?_⟩
          · rw [dataOf_setData, if_pos ⟨rfl, hlt⟩]
          · simpa using hm
        · rw [dataOf_setData, if_neg hcase]
          exact Or.inl (by trivial)
      · simp only [hnv, ite_false]
        exact Or.inl (by trivial)
  | succ i ih =>
    intro h curr id
    have hlen_us : ∀ (g : Heap T) (c : Nat), (descendU cmp g v i c).2.length = i + 1 :=
      fun g c => descendU_len cmp g v i c
    simp only [descendSet, descendU]
    cases hm : fwd h (advanceLevel cmp h v (i + 1) h.length curr) (i + 1) with
    | none =>
      rcases ih h (advanceLevel cmp h v (i + 1) h.length curr) id with hl | ⟨hc0, hcv, j, hj, hfj⟩
      · exact Or.inl hl
      · refine Or.inr ⟨hc0, hcv, j, by omega, ?_⟩
        rw [getD_append_left _ _ _ _ (by rw [hlen_us]; omega)]
        exact hfj
    | some nxt =>
      by_cases hnv : cmp (dataOf h nxt) v = 0
      · simp only [hnv, ite_true]
        have hstep : EquivData cmp h (setData h nxt v) := equivData_setData lc h hnv
        have husq : (descendU cmp (setData h nxt v) v i (advanceLevel cmp h v (i + 1) h.length curr)).2
            = (descendU cmp h v i (advanceLevel cmp h v (i + 1) h.length curr)).2 := by
          rw [descendU_equiv hstep v i _]
        rcases ih (setData h nxt v) (advanceLevel cmp h v (i + 1) h.length curr) id with hl | ⟨hc0, hcv, j, hj, hfj⟩
        · rw [dataOf_setData] at hl
          by_cases hcase : nxt = id ∧ nxt < h.length
          · obtain ⟨rfl, hlt⟩ := hcase
            rw [if_pos ⟨rfl, hlt⟩] at hl
            refine Or.inr ⟨hnv, hl, i + 1, Nat.le_refl _, ?_⟩
            rw [getD_append_right _ _ _ _ (by rw [hlen_us])]
            rw [hlen_us]
            simpa using hm
          · rw [if_neg hcase] at hl
            exact Or.inl hl
        · rw [hstep.2.2.2 id v] at hc0
          rw [hstep.2.2.1 _ j, husq] at hfj
          refine Or.inr ⟨hc0, hcv, j, by omega, ?_⟩
          rw [getD_append_left _ _ _ _ (by rw [hlen_us]; omega)]
          exact hfj
      · simp only [hnv, ite_false]
        rcases ih h (advanceLevel cmp h v (i + 1) h.length curr) id with hl | ⟨hc0, hcv, j, hj, hfj⟩
        · exact Or.inl hl
        · refine Or.inr ⟨hc0, hcv, j, by omega, ?_⟩
          rw [getD_append_left _ _ _ _ (by rw [hlen_us]; omega)]
          exact hfj

/-- If the level-0 successor of `update[0]` is comparison-equal to `v`, the
walk has overwritten its data with `v`. -/
lemma descendSet_hitData [Inhabited T] {cmp : T → T → Int} (lc : LawfulCmp cmp) (v : T) :
    ∀ (i : Nat) (h : Heap T) (curr : Nat) (e : Nat), e < h.length →
      fwd h ((descendU cmp h v i curr).2.getD 0 0) 0 = some e →
      cmp (dataOf h e) v = 0 → dataOf (descendSet cmp v i h curr).1 e = v := by
  intro i
  induction i with
  | zero =>
    intro h curr e helt hfe hev
    simp only [descendU] at hfe
    simp only [descendSet]
    rw [show ([advanceLevel cmp h v 0 h.length curr].getD 0 0) = advanceLevel cmp h v 0 h.length curr from rfl] at hfe
    rw [hfe]
    simp only [hev, ite_true]
    rw [dataOf_setData, if_pos ⟨rfl, helt⟩]
  | succ i ih =>
    intro h curr e helt hfe hev
    have hlen_us : (descendU cmp h v i (advanceLevel cmp h v (i + 1) h.length curr)).2.length = i + 1 :=
      descendU_len cmp h v i _
    simp only [descendU] at hfe
    rw [getD_append_left _ _ _ _ (by rw [hlen_us]; omega)] at hfe
    simp only [descendSet]
    cases hm : fwd h (advanceLevel cmp h v (i + 1) h.length curr) (i + 1) with
    | none =>
      exact ih h (advanceLevel cmp h v (i + 1) h.length curr) e helt hfe hev
    | some nxt =>
      by_cases hnv : cmp (dataOf h nxt) v = 0
      · simp only [hnv, ite_true]
        have hstep : EquivData cmp h (setData h nxt v) := equivData_setData lc h hnv
        apply ih (setData h nxt v) (advanceLevel cmp h v (i + 1) h.length curr) e
        · rw [hstep.1]
          exact helt
        · rw [descendU_equiv hstep v i _]
          rw [hstep.2.2.1]
          exact hfe
        · rw [hstep.2.2.2 e v]
          exact hev
      · simp only [hnv, ite_false]
        exact ih h (advanceLevel cmp h v (i + 1) h.length curr) e helt hfe hev

/-! ### Effects of the splice, relink and shrink loops -/

/-- `fwd` after `setFwd` at a valid slot. -/
lemma fwd_setFwd_clean [Inhabited T] (h : Heap T) (u i : Nat) (v : Option Nat)
    (hu : u < h.length) (hh : i < heightOf h u) (id j : Nat) :
    fwd (setFwd h u i v) id j = if u = id ∧ i = j then v else fwd h id j := by
  rw [fwd_setFwd]
  by_cases hc : u = id ∧ i = j
  · rw [if_pos ⟨hc.1, hc.2, hu, hh⟩, if_pos hc]
  · rw [if_neg ?_, if_neg hc]
    intro hcon
    exact hc ⟨hcon.1, hcon.2.1⟩

/-- Effect of the splice loop: at each level `j` in the window it points the
new node at `update[j]`'s old successor and `update[j]` at the new node. -/
lemma splice_run [Inhabited T] (us : List Nat) (newId : Nat) :
    ∀ (k lo : Nat) (g : Heap T),
      (∀ j, lo ≤ j → j < lo + k →
        us.getD j 0 < g.length ∧ j < heightOf g (us.getD j 0) ∧
        newId < g.length ∧ j < heightOf g newId ∧ newId ≠ us.getD j 0) →
      ((splice us newId lo k g).length = g.length ∧
       (∀ id, heightOf (splice us newId lo k g) id = heightOf g id) ∧
       (∀ id, dataOf (splice us newId lo k g) id = dataOf g id) ∧
       (∀ id j, fwd (splice us newId lo k g) id j =
         if lo ≤ j ∧ j < lo + k ∧ id = newId then fwd g (us.getD j 0) j
         else if lo ≤ j ∧ j < lo + k ∧ id = us.getD j 0 then some newId
         else fwd g id j)) := by
  intro k
  induction k with
  | zero =>
    intro lo g _
    refine ⟨rfl, fun _ => rfl, fun _ => rfl, ?_⟩
    intro id j
    rw [if_neg (by omega), if_neg (by omega)]
    rfl
  | succ k ih =>
    intro lo g hcond
    obtain ⟨hult, hubh, hnlt, hnh, hne⟩ := hcond lo (Nat.le_refl lo) (by omega)
    have hg1len : (setFwd g newId lo (fwd g (us.getD lo 0) lo)).length = g.length :=
      length_setFwd g newId lo _
    have hg1h : ∀ id, heightOf (setFwd g newId lo (fwd g (us.getD lo 0) lo)) id = heightOf g id :=
      heightOf_setFwd g newId lo _
    have hg1d : ∀ id, dataOf (setFwd g newId lo (fwd g (us.getD lo 0) lo)) id = dataOf g id :=
      dataOf_setFwd g newId lo _
    have hfw1 : ∀ id j, fwd (setFwd g newId lo (fwd g (us.getD lo 0) lo)) id j =
        if newId = id ∧ lo = j then fwd g (us.getD lo 0) lo else fwd g id j :=
      fwd_setFwd_clean g newId lo _ hnlt hnh
    have hg2len : (setFwd (setFwd g newId lo (fwd g (us.getD lo 0) lo)) (us.getD lo 0) lo (some newId)).length = g.length :=
      (length_setFwd _ _ lo _).trans hg1len
    have hg2h : ∀ id, heightOf (setFwd (setFwd g newId lo (fwd g (us.getD lo 0) lo)) (us.getD lo 0) lo (some newId)) id = heightOf g id :=
      fun id => (heightOf_setFwd _ _ lo _ id).trans (hg1h id)
    have hg2d : ∀ id, dataOf (setFwd (setFwd g newId lo (fwd g (us.getD lo 0) lo)) (us.getD lo 0) lo (some newId)) id = dataOf g id :=
      fun id => (dataOf_setFwd _ _ lo _ id).trans (hg1d id)
    have hfw2 : ∀ id j, fwd (setFwd (setFwd g newId lo (fwd g (us.getD lo 0) lo)) (us.getD lo 0) lo (some newId)) id j =
        if us.getD lo 0 = id ∧ lo = j then some newId
        else if newId = id ∧ lo = j then fwd g (us.getD lo 0) lo
        else fwd g id j := by
      intro id j
      rw [fwd_setFwd_clean _ (us.getD lo 0) lo _ (by rw [hg1len]; exact hult) (by rw [hg1h]; exact hubh), hfw1]
    have hrec := ih (lo + 1) (setFwd (setFwd g newId lo (fwd g (us.getD lo 0) lo)) (us.getD lo 0) lo (some newId)) ?_
    · obtain ⟨hrl, hrh, hrd, hrf⟩ := hrec
      have hsp : splice us newId lo (k + 1) g =
          splice us newId (lo + 1) k (setFwd (setFwd g newId lo (fwd g (us.getD lo 0) lo)) (us.getD lo 0) lo (some newId)) := rfl
      refine ⟨by rw [hsp, hrl, hg2len], fun id => by rw [hsp, hrh, hg2h], fun id => by rw [hsp, hrd, hg2d], ?_⟩
      intro id j
      rw [hsp, hrf]
      by_cases hb1 : lo + 1 ≤ j ∧ j < lo + 1 + k ∧ id = newId
      · rw [if_pos hb1, if_pos ⟨by omega, by omega, hb1.2.2⟩]
        rw [hfw2, if_neg (by omega), if_neg (by omega)]
      · rw [if_neg hb1]
        by_cases hb2 : lo + 1 ≤ j ∧ j < lo + 1 + k ∧ id = us.getD j 0
        · rw [if_pos hb2, if_neg ?_, if_pos ⟨by omega, by omega, hb2.2.2⟩]
          rintro ⟨h1, h2, rfl⟩
          obtain ⟨_, _, _, _, hneq⟩ := hcond j (by omega) (by omega)
          exact hneq hb2.2.2
        · rw [if_neg hb2, hfw2]
          by_cases hj : j = lo
          · subst hj
            by_cases hid : us.getD j 0 = id
            · rw [if_pos ⟨hid, rfl⟩]
              rw [if_neg (by omega), if_pos ⟨Nat.le_refl _, by omega, hid.symm⟩]
            · rw [if_neg (fun hcc => hid hcc.1)]
              by_cases hidn : newId = id
              · rw [if_pos ⟨hidn, rfl⟩, if_pos ⟨Nat.le_refl _, by omega, hidn.symm⟩]
              · rw [if_neg (fun hcc => hidn hcc.1), if_neg ?_, if_neg ?_]
                · rintro ⟨_, _, rfl⟩
                  exact hid rfl
                · rintro ⟨_, _, rfl⟩
                  exact hidn rfl
          · rw [if_neg (fun hcc => hj hcc.2.symm), if_neg (fun hcc => hj hcc.2.symm)]
            rw [if_neg ?_, if_neg ?_]
            · rintro ⟨h1, h2, rfl⟩
              exact hb2 ⟨by omega, by omega, rfl⟩
            · rintro ⟨h1, h2, rfl⟩
              exact hb1 ⟨by omega, by omega, rfl⟩
    · intro j hj1 hj2
      obtain ⟨c1, c2, c3, c4, c5⟩ := hcond j (by omega) (by omega)
      exact ⟨by rw [hg2len]; exact c1, by rw [hg2h]; exact c2,
        by rw [hg2len]; exact c3, by rw [hg2h]; exact c4, c5⟩

/-- Effect of the relink loop of `Delete`: it relinks exactly the levels below
the removed node's height, and stops at the first level where `update[i]` no
longer points at the node. -/
lemma relink_run [Inhabited T] (us : List Nat) (cur : Nat) (he : Nat) :
    ∀ (k lo : Nat) (g : Heap T),
      (∀ j, lo ≤ j → j < lo + k → j < he →
          fwd g (us.getD j 0) j = some cur ∧ us.getD j 0 < g.length ∧
          j < heightOf g (us.getD j 0) ∧ us.getD j 0 ≠ cur) →
      (∀ j, lo ≤ j → j < lo + k → ¬ j < he → fwd g (us.getD j 0) j ≠ some cur) →
      ((relink us cur lo k g).length = g.length ∧
       (∀ id, heightOf (relink us cur lo k g) id = heightOf g id) ∧
       (∀ id, dataOf (relink us cur lo k g) id = dataOf g id) ∧
       (∀ id j, fwd (relink us cur lo k g) id j =
         if lo ≤ j ∧ j < lo + k ∧ j < he ∧ id = us.getD j 0 then fwd g cur j
         else fwd g id j)) := by
  intro k
  induction k with
  | zero =>
    intro lo g _ _
    refine ⟨rfl, fun _ => rfl, fun _ => rfl, ?_⟩
    intro id j
    rw [if_neg (by omega)]
    rfl
  | succ k ih =>
    intro lo g hcond hstop
    by_cases hlo : lo < he
    · obtain ⟨hg, hult, hubh, hne⟩ := hcond lo (Nat.le_refl lo) (by omega) hlo
      have hrel : relink us cur lo (k + 1) g =
          relink us cur (lo + 1) k (setFwd g (us.getD lo 0) lo (fwd g cur lo)) := by
        show (if fwd g (us.getD lo 0) lo = some cur then _ else g) = _
        rw [if_pos hg]
      have hg2len : (setFwd g (us.getD lo 0) lo (fwd g cur lo)).length = g.length :=
        length_setFwd g _ lo _
      have hg2h : ∀ id, heightOf (setFwd g (us.getD lo 0) lo (fwd g cur lo)) id = heightOf g id :=
        heightOf_setFwd g _ lo _
      have hg2d : ∀ id, dataOf (setFwd g (us.getD lo 0) lo (fwd g cur lo)) id = dataOf g id :=
        dataOf_setFwd g _ lo _
      have hfw2 : ∀ id j, fwd (setFwd g (us.getD lo 0) lo (fwd g cur lo)) id j =
          if us.getD lo 0 = id ∧ lo = j then fwd g cur lo else fwd g id j :=
        fwd_setFwd_clean g _ lo _ hult hubh
      have hfwcur : ∀ j, fwd (setFwd g (us.getD lo 0) lo (fwd g cur lo)) cur j = fwd g cur j := by
        intro j
        rw [hfw2, if_neg (fun hcc => hne hcc.1)]
      have hrec := ih (lo + 1) (setFwd g (us.getD lo 0) lo (fwd g cur lo)) ?_ ?_
      · obtain ⟨hrl, hrh, hrd, hrf⟩ := hrec
        refine ⟨by rw [hrel, hrl, hg2len], fun id => by rw [hrel, hrh, hg2h],
          fun id => by rw [hrel, hrd, hg2d], ?_⟩
        intro id j
        rw [hrel, hrf]
        by_cases hb1 : lo + 1 ≤ j ∧ j < lo + 1 + k ∧ j < he ∧ id = us.getD j 0
        · rw [if_pos hb1, hfwcur, if_pos ⟨by omega, by omega, hb1.2.2⟩]
        · rw [if_neg hb1, hfw2]
          by_cases hj : us.getD lo 0 = id ∧ lo = j
          · obtain ⟨hju, hjl⟩ := hj
            rw [if_pos ⟨hju, hjl⟩, ← hjl, if_pos ⟨Nat.le_refl _, by omega, hlo, hju.symm⟩]
          · rw [if_neg hj, if_neg ?_]
            rintro ⟨h1, h2, h3, rfl⟩
            rcases Nat.lt_or_ge lo j with hlt | hge
            · exact hb1 ⟨by omega, by omega, h3, rfl⟩
            · have hje : lo = j := by omega
              exact hj ⟨by rw [hje], hje⟩
      · intro j hj1 hj2 hj3
        obtain ⟨c1, c2, c3, c4⟩ := hcond j (by omega) (by omega) hj3
        refine ⟨?_, by rw [hg2len]; exact c2, by rw [hg2h]; exact c3, c4⟩
        rw [hfw2, if_neg (by omega)]
        exact c1
      · intro j hj1 hj2 hj3
        have := hstop j (by omega) (by omega) hj3
        rw [hfw2, if_neg (by omega)]
        exact this
    · have hg : fwd g (us.getD lo 0) lo ≠ some cur :=
        hstop lo (Nat.le_refl lo) (by omega) hlo
      have hrel : relink us cur lo (k + 1) g = g := by
        show (if fwd g (us.getD lo 0) lo = some cur then _ else g) = g
        rw [if_neg hg]
      refine ⟨by rw [hrel], fun id => by rw [hrel], fun id => by rw [hrel], ?_⟩
      intro id j
      rw [hrel, if_neg (by omega)]

/-- Effect of the level-shrink loop of `Delete`. -/
lemma shrink_run [Inhabited T] (h : Heap T) (hd : Nat) :
    ∀ (l : Nat), shrink h hd l ≤ l ∧
      (shrink h hd l = 0 ∨ fwd h hd (shrink h hd l) ≠ none) ∧
      (∀ i, shrink h hd l < i → i ≤ l → fwd h hd i = none) := by
  intro l
  induction l with
  | zero => exact ⟨Nat.le_refl 0, Or.inl rfl, fun i h1 h2 => by omega⟩
  | succ l ih =>
    by_cases hc : fwd h hd (l + 1) = none
    · have hsh : shrink h hd (l + 1) = shrink h hd l := by
        show (if fwd h hd (l + 1) = none then shrink h hd l else l + 1) = _
        rw [if_pos hc]
      obtain ⟨i1, i2, i3⟩ := ih
      refine ⟨by omega, by rw [hsh]; exact i2, ?_⟩
      intro i h1 h2
      rcases Nat.lt_or_ge i (l + 1) with hlt | hge
      · exact i3 i (by omega) (by omega)
      · have : i = l + 1 := by omega
        rw [this]
        exact hc
    · have hsh : shrink h hd (l + 1) = l + 1 := by
        show (if fwd h hd (l + 1) = none then shrink h hd l else l + 1) = _
        rw [if_neg hc]
      exact ⟨by omega, by rw [hsh]; exact Or.inr hc, fun i h1 h2 => by omega⟩

/-! ### Transfer and surgery helpers -/

/-- At most one stored node compares equal to a given key. -/
lemma equal_unique [Inhabited T] {cmp : T → T → Int} {s : SkipList T} {ids : List Nat}
    (lc : LawfulCmp cmp) (wf : WfIds cmp s ids) {t : T} {e1 e2 : Nat}
    (h1 : e1 ∈ ids) (h2 : e2 ∈ ids) (he1 : cmp (dataOf s.nodes e1) t = 0)
    (he2 : cmp (dataOf s.nodes e2) t = 0) : e1 = e2 := by
  rcases pairwise_mem_cases ids wf.sorted e1 h1 e2 h2 with heq | hlt | hgt
  · exact heq
  · exfalso
    have := lc.lt_of_lt_of_eq hlt he2
    omega
  · exfalso
    have := lc.lt_of_lt_of_eq hgt he1
    omega

/-- Well-formedness transfers along observation-preserving heap replacement
(with possibly comparison-equivalent data). -/
lemma WfIds.transfer [Inhabited T] {cmp : T → T → Int} {s : SkipList T} {ids : List Nat}
    (lc : LawfulCmp cmp) (wf : WfIds cmp s ids) (s2 : SkipList T)
    (hml : s2.maxLevel = s.maxLevel) (hlv : s2.level = s.level) (hhd : s2.header = s.header)
    (hlen : s2.nodes.length = s.nodes.length)
    (hh : ∀ id, heightOf s2.nodes id = heightOf s.nodes id)
    (hf : ∀ id j, fwd s2.nodes id j = fwd s.nodes id j)
    (hdcmp : ∀ id u, cmp (dataOf s2.nodes id) u = cmp (dataOf s.nodes id) u) :
    WfIds cmp s2 ids := by
  have hfil : ∀ i l, hFilter s2.nodes i l = hFilter s.nodes i l := by
    intro i l
    unfold hFilter
    apply List.filter_congr
    intro x _
    rw [hh x]
  refine ⟨by rw [hhd, wf.header0], by rw [hlen]; exact wf.hlen,
    by rw [hh, hml]; exact wf.hfwdlen, by rw [hml]; exact wf.maxpos,
    by rw [hlv, hml]; exact wf.lvlmax, wf.nodup,
    fun id hid => by rw [hlen]; exact wf.bounds id hid, ?_,
    fun id hid => by rw [hh]; exact wf.hpos id hid,
    fun id hid => by rw [hh, hlv]; exact wf.hbound id hid, ?_, ?_⟩
  · apply wf.sorted.imp_of_mem
    intro a b _ _ hab
    have h1 : cmp (dataOf s2.nodes a) (dataOf s2.nodes b) = cmp (dataOf s.nodes a) (dataOf s2.nodes b) :=
      hdcmp a _
    have h2 : cmp (dataOf s.nodes a) (dataOf s2.nodes b) = cmp (dataOf s.nodes a) (dataOf s.nodes b) := by
      have f1 := lc.flip (dataOf s.nodes a) (dataOf s2.nodes b)
      have f2 := lc.flip (dataOf s.nodes a) (dataOf s.nodes b)
      have := hdcmp b (dataOf s.nodes a)
      omega
    omega
  · intro i
    rw [hfil]
    exact seg_congr s.nodes s2.nodes i 0 _ none (fun y _ => hf y i) (wf.chains i)
  · rcases wf.top with h0 | ⟨id, hid, hlt⟩
    · exact Or.inl (by rw [hlv]; exact h0)
    · exact Or.inr ⟨id, hid, by rw [hh, hlv]; exact hlt⟩

/-- Redirecting the pointer out of the last node of a chain segment. -/
lemma seg_retarget [Inhabited T] (h g2 : Heap T) (i : Nat) (w : Option Nat) :
    ∀ (l : List Nat) (p : Nat) (q : Option Nat), ChainSeg h i p l q → (p :: l).Nodup →
      (∀ x ∈ p :: l, fwd g2 x i = if x = lastD p l then w else fwd h x i) →
      ChainSeg g2 i p l w := by
  intro l
  induction l with
  | nil =>
    intro p q _ _ hfw
    have := hfw p (by simp)
    rw [show lastD p ([] : List Nat) = p from rfl, if_pos rfl] at this
    exact this
  | cons x xs ih =>
    intro p q hs hnd hfw
    have hlast_mem : lastD x xs ∈ x :: xs := by
      rcases lastD_mem x xs with heq | hmem
      · simp [heq]
      · simp [hmem]
    have hpne : p ≠ lastD x xs := by
      intro hcc
      have : p ∈ x :: xs := hcc ▸ hlast_mem
      exact (List.nodup_cons.1 hnd).1 this
    refine ⟨?_, ?_⟩
    · have := hfw p (by simp)
      rw [show lastD p (x :: xs) = lastD x xs from rfl, if_neg hpne] at this
      rw [this]
      exact hs.1
    · refine ih x q hs.2 (List.nodup_cons.1 hnd).2 ?_
      intro y hy
      have := hfw y (List.mem_cons_of_mem p hy)
      rwa [show lastD p (x :: xs) = lastD x xs from rfl] at this

/-! ### Predecessor facts under well-formedness -/

lemma predAt_cases [Inhabited T] {cmp : T → T → Int} (h : Heap T) (t : T)
    (ids : List Nat) (j : Nat) :
    predAt cmp h t ids j = 0 ∨
      predAt cmp h t ids j ∈ hFilter h j (ltIds cmp h t ids) := by
  unfold predAt
  by_cases hc : hFilter h j (ltIds cmp h t ids) = []
  · rw [hc]
    exact Or.inl rfl
  · exact Or.inr (lastD_mem_of_ne_nil 0 _ hc)

lemma predAt_lt_length [Inhabited T] {cmp : T → T → Int} {s : SkipList T} {ids : List Nat}
    (wf : WfIds cmp s ids) (t : T) (j : Nat) :
    predAt cmp s.nodes t ids j < s.nodes.length := by
  rcases predAt_cases s.nodes t ids j with h0 | hmem
  · rw [h0]
    exact wf.hlen
  · exact wf.bounds _ ((ltIds_sublist cmp s.nodes t ids).subset (mem_hFilter.1 hmem).1)

lemma predAt_height [Inhabited T] {cmp : T → T → Int} {s : SkipList T} {ids : List Nat}
    (wf : WfIds cmp s ids) (t : T) (j : Nat) (hj : j ≤ s.maxLevel) :
    j < heightOf s.nodes (predAt cmp s.nodes t ids j) := by
  rcases predAt_cases s.nodes t ids j with h0 | hmem
  · rw [h0, wf.hfwdlen]
    omega
  · exact (mem_hFilter.1 hmem).2

lemma predAt_mem_or [Inhabited T] (cmp : T → T → Int) (h : Heap T) (t : T)
    (ids : List Nat) (j : Nat) :
    predAt cmp h t ids j = 0 ∨
      (predAt cmp h t ids j ∈ ids ∧ cmp (dataOf h (predAt cmp h t ids j)) t = -1) := by
  rcases predAt_cases h t ids j with h0 | hmem
  · exact Or.inl h0
  · exact Or.inr (mem_ltIds.1 (mem_hFilter.1 hmem).1)

lemma fwd_predAt [Inhabited T] {cmp : T → T → Int} {s : SkipList T} {ids : List Nat}
    (lc : LawfulCmp cmp) (wf : WfIds cmp s ids) (t : T) (j : Nat) :
    fwd s.nodes (predAt cmp s.nodes t ids j) j =
      frontOpt (hFilter s.nodes j (geIds cmp s.nodes t ids)) none :=
  seg_front s.nodes j _ _ none (predAt_chain lc wf t j)

lemma fwd_predAt_mem [Inhabited T] {cmp : T → T → Int} {s : SkipList T} {ids : List Nat}
    (lc : LawfulCmp cmp) (wf : WfIds cmp s ids) (t : T) (j : Nat) {x : Nat}
    (hx : fwd s.nodes (predAt cmp s.nodes t ids j) j = some x) :
    x ∈ ids ∧ ¬ cmp (dataOf s.nodes x) t = -1 ∧ j < heightOf s.nodes x := by
  rw [fwd_predAt lc wf t j] at hx
  cases hg : hFilter s.nodes j (geIds cmp s.nodes t ids) with
  | nil =>
    rw [hg] at hx
    exact absurd hx (by simp [frontOpt])
  | cons y ys =>
    rw [hg] at hx
    have hyx : y = x := by simpa [frontOpt] using hx
    subst hyx
    have hmem : y ∈ hFilter s.nodes j (geIds cmp s.nodes t ids) := by
      rw [hg]
      simp
    obtain ⟨hmg, hht⟩ := mem_hFilter.1 hmem
    obtain ⟨hmi, hnlt⟩ := mem_geIds.1 hmg
    exact ⟨hmi, hnlt, hht⟩

/-- Summary of the `Set` walk on a well-formed state: update array entries are
the per-level predecessors, the heap keeps its links, and only the (unique)
stored node comparison-equal to `v` may have had its data overwritten with `v`. -/
lemma setWalk_summary [Inhabited T] {cmp : T → T → Int} {s : SkipList T} {ids : List Nat}
    (lc : LawfulCmp cmp) (wf : WfIds cmp s ids) (v : T) :
    (descendSet cmp v s.level s.nodes s.header).2.length = s.level + 1 ∧
    (∀ j, j ≤ s.level → (descendSet cmp v s.level s.nodes s.header).2.getD j 0 =
      predAt cmp s.nodes v ids j) ∧
    EquivData cmp s.nodes (descendSet cmp v s.level s.nodes s.header).1 ∧
    (∀ id, dataOf (descendSet cmp v s.level s.nodes s.header).1 id = dataOf s.nodes id ∨
      (id ∈ ids ∧ cmp (dataOf s.nodes id) v = 0 ∧
        dataOf (descendSet cmp v s.level s.nodes s.header).1 id = v)) := by
  obtain ⟨hobs, hus⟩ := descendSet_obs lc v s.level s.nodes s.header
  have hrun := descendU_run lc wf v s.level s.header
    (by rw [wf.header0]; exact (predAt_top wf v).symm)
  refine ⟨by rw [hus]; exact hrun.1, ?_, hobs, ?_⟩
  · intro j hj
    rw [hus]
    exact hrun.2.1 j hj
  · intro id
    rcases descendSet_data lc v s.level s.nodes s.header id with hl | ⟨hc0, hcv, j, hj, hfj⟩
    · exact Or.inl hl
    · rw [hrun.2.1 j hj] at hfj
      exact Or.inr ⟨(fwd_predAt_mem lc wf v j hfj).1, hc0, hcv⟩

/-! ### `Set` on a present key: update in place -/

lemma setOp_present [Inhabited T] {cmp : T → T → Int} {s : SkipList T} {ids : List Nat}
    (lc : LawfulCmp cmp) (wf : WfIds cmp s ids) (v : T) (r : Nat) {e : Nat}
    (he : e ∈ ids) (hev : cmp (dataOf s.nodes e) v = 0) :
    WfIds cmp (setOp cmp s v r) ids ∧
    (setOp cmp s v r).maxLevel = s.maxLevel ∧
    (setOp cmp s v r).level = s.level ∧
    (setOp cmp s v r).header = s.header ∧
    (setOp cmp s v r).nodes.length = s.nodes.length ∧
    (∀ id, heightOf (setOp cmp s v r).nodes id = heightOf s.nodes id) ∧
    (∀ id j, fwd (setOp cmp s v r).nodes id j = fwd s.nodes id j) ∧
    dataOf (setOp cmp s v r).nodes e = v ∧
    (∀ id, id ≠ e → dataOf (setOp cmp s v r).nodes id = dataOf s.nodes id) := by
  obtain ⟨hlen_us, hget_us, hequiv, hdata⟩ := setWalk_summary lc wf v
  obtain ⟨e2, l2, hg, he2v⟩ := (equal_mem_iff_head lc wf v).1 ⟨e, he, hev⟩
  have he2 : e2 ∈ ids := (mem_geIds.1 (by rw [hg]; simp)).1
  have he2e : e2 = e := equal_unique lc wf he2 he he2v hev
  subst he2e
  have hfwd0 : fwd s.nodes (predAt cmp s.nodes v ids 0) 0 = some e2 := by
    rw [fwd_predAt lc wf v 0, hFilter_zero wf _ (geIds_sublist cmp s.nodes v ids), hg]
    rfl
  have hfH : fwd (descendSet cmp v s.level s.nodes s.header).1
      ((descendSet cmp v s.level s.nodes s.header).2.getD 0 0) 0 = some e2 := by
    rw [hequiv.2.2.1, hget_us 0 (Nat.zero_le _)]
    exact hfwd0
  have hpure : fwd s.nodes ((descendU cmp s.nodes v s.level s.header).2.getD 0 0) 0 = some e2 := by
    rw [(descendU_run lc wf v s.level s.header
      (by rw [wf.header0]; exact (predAt_top wf v).symm)).2.1 0 (Nat.zero_le _)]
    exact hfwd0
  have hHdata : dataOf (descendSet cmp v s.level s.nodes s.header).1 e2 = v :=
    descendSet_hitData lc v s.level s.nodes s.header e2 (wf.bounds e2 he) hpure hev
  have hHcmp : cmp (dataOf (descendSet cmp v s.level s.nodes s.header).1 e2) v = 0 := by
    rw [hequiv.2.2.2]
    exact hev
  have hset : setOp cmp s v r = { s with nodes := (descendSet cmp v s.level s.nodes s.header).1 } := by
    simp only [setOp]
    rw [hfH]
    simp [hHcmp]
  have hothers : ∀ id, id ≠ e2 →
      dataOf (descendSet cmp v s.level s.nodes s.header).1 id = dataOf s.nodes id := by
    intro id hne
    rcases hdata id with hl | ⟨hm, hc, _⟩
    · exact hl
    · exact absurd (equal_unique lc wf hm he hc hev) hne
  rw [hset]
  refine ⟨?_, rfl, rfl, rfl, hequiv.1, hequiv.2.1, hequiv.2.2.1, hHdata, hothers⟩
  exact wf.transfer lc _ rfl rfl rfl hequiv.1 hequiv.2.1 hequiv.2.2.1 hequiv.2.2.2

/-! ### `Set` on an absent key: splice in a fresh node -/

lemma getD_replicate (k i : Nat) (a d : Nat) :
    (List.replicate k a).getD i d = if i < k then a else d := by
  rw [List.getD_eq_getElem?_getD, List.getElem?_replicate]
  by_cases h : i < k
  · simp [h]
  · simp [h]

lemma getD_replicate_opt (k i : Nat) (d : Option Nat) :
    (List.replicate k (none : Option Nat)).getD i d = if i < k then none else d := by
  rw [List.getD_eq_getElem?_getD, List.getElem?_replicate]
  by_cases h : i < k
  · simp [h]
  · simp [h]

lemma hFilter_cons [Inhabited T] (h : Heap T) (i : Nat) (x : Nat) (l : List Nat) :
    hFilter h i (x :: l) = if i < heightOf h x then x :: hFilter h i l else hFilter h i l := by
  unfold hFilter
  rw [List.filter_cons]
  by_cases hc : i < heightOf h x
  · simp [hc]
  · simp [hc]

lemma lt_ge_disjoint [Inhabited T] {cmp : T → T → Int} {h : Heap T} {t : T}
    {l : List Nat} {x : Nat} (h1 : x ∈ ltIds cmp h t l) (h2 : x ∈ geIds cmp h t l) :
    False :=
  (mem_geIds.1 h2).2 (mem_ltIds.1 h1).2

/-- All predecessors above the current level are the header. -/
lemma predAt_above [Inhabited T] {cmp : T → T → Int} {s : SkipList T} {ids : List Nat}
    (wf : WfIds cmp s ids) (t : T) (j : Nat) (hj : s.level < j) :
    predAt cmp s.nodes t ids j = 0 := by
  unfold predAt
  have : hFilter s.nodes j (ltIds cmp s.nodes t ids) = [] := by
    simp only [hFilter, List.filter_eq_nil_iff]
    intro x hx
    have hmem : x ∈ ids := (mem_ltIds.1 hx).1
    have := wf.hbound x hmem
    simp
    omega
  rw [this]
  rfl

lemma setOp_absent [Inhabited T] {cmp : T → T → Int} {s : SkipList T} {ids : List Nat}
    (lc : LawfulCmp cmp) (wf : WfIds cmp s ids) (v : T) (r : Nat) (hr : r < s.maxLevel)
    (habs : ∀ x ∈ ids, cmp (dataOf s.nodes x) v ≠ 0) :
    WfIds cmp (setOp cmp s v r)
      (ltIds cmp s.nodes v ids ++ s.nodes.length :: geIds cmp s.nodes v ids) ∧
    (setOp cmp s v r).maxLevel = s.maxLevel ∧
    (setOp cmp s v r).header = s.header ∧
    (setOp cmp s v r).level = (if s.level < r then r else s.level) ∧
    (setOp cmp s v r).nodes.length = s.nodes.length + 1 ∧
    dataOf (setOp cmp s v r).nodes s.nodes.length = v ∧
    (∀ id, id ≠ s.nodes.length → dataOf (setOp cmp s v r).nodes id = dataOf s.nodes id) := by
  obtain ⟨hlen_us, hget_us, hequiv, hdata⟩ := setWalk_summary lc wf v
  have hHlen : (descendSet cmp v s.level s.nodes s.header).1.length = s.nodes.length := hequiv.1
  have hHh : ∀ id, heightOf (descendSet cmp v s.level s.nodes s.header).1 id = heightOf s.nodes id :=
    hequiv.2.1
  have hHf : ∀ id j, fwd (descendSet cmp v s.level s.nodes s.header).1 id j = fwd s.nodes id j :=
    hequiv.2.2.1
  have hHd : ∀ id, dataOf (descendSet cmp v s.level s.nodes s.header).1 id = dataOf s.nodes id := by
    intro id
    rcases hdata id with hl | ⟨hm, hc, _⟩
    · exact hl
    · exact absurd hc (habs id hm)
  have hn0 : 0 < s.nodes.length := wf.hlen
  have hsplit : ids = ltIds cmp s.nodes v ids ++ geIds cmp s.nodes v ids :=
    sorted_filter_split lc s.nodes v ids wf.sorted
  have hmemA : ∀ x ∈ ltIds cmp s.nodes v ids, x ∈ ids :=
    fun x hx => (ltIds_sublist cmp s.nodes v ids).subset hx
  have hmemB : ∀ x ∈ geIds cmp s.nodes v ids, x ∈ ids :=
    fun x hx => (geIds_sublist cmp s.nodes v ids).subset hx
  have hfH : fwd (descendSet cmp v s.level s.nodes s.header).1
      ((descendSet cmp v s.level s.nodes s.header).2.getD 0 0) 0 =
      frontOpt (geIds cmp s.nodes v ids) none := by
    rw [hHf, hget_us 0 (Nat.zero_le _), fwd_predAt lc wf v 0,
      hFilter_zero wf _ (geIds_sublist cmp s.nodes v ids)]
  have hhit : (match fwd (descendSet cmp v s.level s.nodes s.header).1
      ((descendSet cmp v s.level s.nodes s.header).2.getD 0 0) 0 with
    | some cur => decide (cmp (dataOf (descendSet cmp v s.level s.nodes s.header).1 cur) v = 0)
    | none => false) = false := by
    rw [hfH]
    cases hB : geIds cmp s.nodes v ids with
    | nil => rfl
    | cons b B2 =>
      show decide (cmp (dataOf (descendSet cmp v s.level s.nodes s.header).1 b) v = 0) = false
      rw [decide_eq_false_iff_not, hHd b]
      exact habs b (hmemB b (by rw [hB]; simp))
  have hset : setOp cmp s v r = { s with
      level := if s.level < r then r else s.level,
      nodes := splice
        (if s.level < r then (descendSet cmp v s.level s.nodes s.header).2 ++
          List.replicate (r - s.level) s.header else (descendSet cmp v s.level s.nodes s.header).2)
        (descendSet cmp v s.level s.nodes s.header).1.length 0 (r + 1)
        ((descendSet cmp v s.level s.nodes s.header).1 ++
          [{ data := v, forward := List.replicate (r + 1) none }]) } := by
    simp only [setOp]
    rw [hhit]
    rfl
  have hus2 : ∀ j, j ≤ r →
      (if s.level < r then (descendSet cmp v s.level s.nodes s.header).2 ++
        List.replicate (r - s.level) s.header else (descendSet cmp v s.level s.nodes s.header).2).getD j 0 =
      predAt cmp s.nodes v ids j := by
    intro j hj
    by_cases hlr : s.level < r
    · rw [if_pos hlr]
      rcases Nat.lt_or_ge j (s.level + 1) with hjl | hjg
      · rw [getD_append_left _ _ _ _ (by rw [hlen_us]; omega)]
        exact hget_us j (by omega)
      · rw [getD_append_right _ _ _ _ (by rw [hlen_us]; omega), hlen_us]
        rw [getD_replicate (r - s.level) (j - (s.level + 1)) s.header 0]
        rw [if_pos (by omega), wf.header0]
        exact (predAt_above wf v j (by omega)).symm
    · rw [if_neg hlr]
      exact hget_us j (by omega)
  set nd : Node T := { data := v, forward := List.replicate (r + 1) none } with hnd
  have hg0len : ((descendSet cmp v s.level s.nodes s.header).1 ++ [nd]).length = s.nodes.length + 1 := by
    simp [hHlen]
  have hg0h : ∀ id, heightOf ((descendSet cmp v s.level s.nodes s.header).1 ++ [nd]) id =
      if id = s.nodes.length then r + 1 else heightOf s.nodes id := by
    intro id
    rw [heightOf_append, hHlen]
    by_cases hc : id = s.nodes.length
    · simp [hc, hnd]
    · simp [hc, hHh]
  have hg0d : ∀ id, dataOf ((descendSet cmp v s.level s.nodes s.header).1 ++ [nd]) id =
      if id = s.nodes.length then v else dataOf s.nodes id := by
    intro id
    rw [dataOf_append, hHlen]
    by_cases hc : id = s.nodes.length
    · simp [hc, hnd]
    · simp [hc, hHd]
  have hg0f : ∀ id j, fwd ((descendSet cmp v s.level s.nodes s.header).1 ++ [nd]) id j =
      if id = s.nodes.length then none else fwd s.nodes id j := by
    intro id j
    rw [fwd_append, hHlen]
    by_cases hc : id = s.nodes.length
    · simp only [hc, ite_true, hnd]
      rw [getD_replicate_opt]
      split <;> rfl
    · simp [hc, hHf]
  have hpredn : ∀ j, predAt cmp s.nodes v ids j ≠ s.nodes.length := by
    intro j
    rcases predAt_mem_or cmp s.nodes v ids j with h0 | ⟨hm, _⟩
    · rw [h0]
      omega
    · have hb := wf.bounds (predAt cmp s.nodes v ids j) hm
      omega
  have hsplice := splice_run
    (if s.level < r then (descendSet cmp v s.level s.nodes s.header).2 ++
      List.replicate (r - s.level) s.header else (descendSet cmp v s.level s.nodes s.header).2)
    (descendSet cmp v s.level s.nodes s.header).1.length
    (r + 1) 0
    ((descendSet cmp v s.level s.nodes s.header).1 ++ [nd]) ?_
  swap
  · intro j hj0 hjr
    rw [hus2 j (by omega)]
    constructor
    · rw [hg0len]
      have := predAt_lt_length wf v j
      omega
    constructor
    · rw [hg0h, if_neg (hpredn j)]
      exact predAt_height wf v j (by omega)
    constructor
    · rw [hHlen, hg0len]
      omega
    constructor
    · rw [hHlen, hg0h, if_pos rfl]
      omega
    · rw [hHlen]
      exact fun hcc => hpredn j hcc.symm
  obtain ⟨hglen, hgh0, hgd0, hgf0⟩ := hsplice
  have hgh : ∀ id, heightOf (setOp cmp s v r).nodes id =
      if id = s.nodes.length then r + 1 else heightOf s.nodes id := by
    intro id
    rw [hset]
    show heightOf (splice _ _ 0 (r + 1) _) id = _
    rw [hgh0, hg0h]
  have hgd : ∀ id, dataOf (setOp cmp s v r).nodes id =
      if id = s.nodes.length then v else dataOf s.nodes id := by
    intro id
    rw [hset]
    show dataOf (splice _ _ 0 (r + 1) _) id = _
    rw [hgd0, hg0d]
  have hglen2 : (setOp cmp s v r).nodes.length = s.nodes.length + 1 := by
    rw [hset]
    show (splice _ _ 0 (r + 1) _).length = _
    rw [hglen, hg0len]
  have hgf : ∀ id j, fwd (setOp cmp s v r).nodes id j =
      if j ≤ r ∧ id = s.nodes.length then
        frontOpt (hFilter s.nodes j (geIds cmp s.nodes v ids)) none
      else if j ≤ r ∧ id = predAt cmp s.nodes v ids j then some s.nodes.length
      else if id = s.nodes.length then none
      else fwd s.nodes id j := by
    intro id j
    rw [hset]
    show fwd (splice _ _ 0 (r + 1) _) id j = _
    rw [hgf0]
    by_cases hjr : j ≤ r
    · rw [hus2 j hjr]
      by_cases hidn : id = s.nodes.length
      · have hc1 : 0 ≤ j ∧ j < 0 + (r + 1) ∧
            id = (descendSet cmp v s.level s.nodes s.header).1.length :=
          ⟨Nat.zero_le _, by omega, by rw [hHlen]; exact hidn⟩
        have hc2 : j ≤ r ∧ id = s.nodes.length := ⟨hjr, hidn⟩
        rw [if_pos hc1, if_pos hc2]
        rw [hg0f, if_neg (hpredn j)]
        exact fwd_predAt lc wf v j
      · have hc1 : ¬ (0 ≤ j ∧ j < 0 + (r + 1) ∧
            id = (descendSet cmp v s.level s.nodes s.header).1.length) := by
          rintro ⟨_, _, hcc⟩
          rw [hHlen] at hcc
          exact hidn hcc
        have hc2 : ¬ (j ≤ r ∧ id = s.nodes.length) := fun hcc => hidn hcc.2
        rw [if_neg hc1, if_neg hc2]
        by_cases hidp : id = predAt cmp s.nodes v ids j
        · have hc3 : 0 ≤ j ∧ j < 0 + (r + 1) ∧ id = predAt cmp s.nodes v ids j :=
            ⟨Nat.zero_le _, by omega, hidp⟩
          have hc4 : j ≤ r ∧ id = predAt cmp s.nodes v ids j := ⟨hjr, hidp⟩
          rw [if_pos hc3, if_pos hc4, hHlen]
        · have hc3 : ¬ (0 ≤ j ∧ j < 0 + (r + 1) ∧ id = predAt cmp s.nodes v ids j) := by
            rintro ⟨_, _, hcc⟩
            exact hidp hcc
          have hc4 : ¬ (j ≤ r ∧ id = predAt cmp s.nodes v ids j) := fun hcc => hidp hcc.2
          rw [if_neg hc3, if_neg hc4, if_neg hidn]
          rw [hg0f, if_neg hidn]
    · have hc1 : ¬ (0 ≤ j ∧ j < 0 + (r + 1) ∧
          id = (descendSet cmp v s.level s.nodes s.header).1.length) := by omega
      have hc2 : ¬ (0 ≤ j ∧ j < 0 + (r + 1) ∧
          id = (if s.level < r then (descendSet cmp v s.level s.nodes s.header).2 ++
            List.replicate (r - s.level) s.header
            else (descendSet cmp v s.level s.nodes s.header).2).getD j 0) := by omega
      have hc3 : ¬ (j ≤ r ∧ id = s.nodes.length) := fun hcc => hjr hcc.1
      have hc4 : ¬ (j ≤ r ∧ id = predAt cmp s.nodes v ids j) := fun hcc => hjr hcc.1
      rw [if_neg hc1, if_neg hc2, if_neg hc3, if_neg hc4, hg0f]
  have hfilG : ∀ i (l : List Nat), (∀ x ∈ l, x ∈ ids) →
      hFilter (setOp cmp s v r).nodes i l = hFilter s.nodes i l := by
    intro i l hl
    unfold hFilter
    apply List.filter_congr
    intro x hx
    rw [hgh x, if_neg ?_]
    have := wf.bounds x (hl x hx)
    omega
  refine ⟨?_, by rw [hset], by rw [hset], by rw [hset], hglen2,
    by rw [hgd, if_pos rfl], fun id hne => by rw [hgd, if_neg hne]⟩
  have hlvl : (setOp cmp s v r).level = if s.level < r then r else s.level := by
    rw [hset]
  have hml : (setOp cmp s v r).maxLevel = s.maxLevel := by
    rw [hset]
  have hhd : (setOp cmp s v r).header = s.header := by
    rw [hset]
  have hnotmem : s.nodes.length ∉ ids := by
    intro hmem
    have := wf.bounds _ hmem
    omega
  have hchains : ∀ i, ChainSeg (setOp cmp s v r).nodes i 0
      (hFilter (setOp cmp s v r).nodes i
        (ltIds cmp s.nodes v ids ++ s.nodes.length :: geIds cmp s.nodes v ids)) none := by
    intro i
    have hfil2 : hFilter (setOp cmp s v r).nodes i
        (ltIds cmp s.nodes v ids ++ s.nodes.length :: geIds cmp s.nodes v ids) =
        hFilter s.nodes i (ltIds cmp s.nodes v ids) ++
          (if i ≤ r then s.nodes.length :: hFilter s.nodes i (geIds cmp s.nodes v ids)
            else hFilter s.nodes i (geIds cmp s.nodes v ids)) := by
      rw [hFilter_append, hfilG i _ hmemA]
      congr 1
      rw [hFilter_cons, hfilG i _ hmemB]
      by_cases hir : i ≤ r
      · rw [if_pos ?_, if_pos hir]
        rw [hgh s.nodes.length, if_pos rfl]
        omega
      · rw [if_neg ?_, if_neg hir]
        rw [hgh s.nodes.length, if_pos rfl]
        omega
    rw [hfil2]
    have hchain_i := wf.chains i
    rw [hsplit, hFilter_append] at hchain_i
    by_cases hir : i ≤ r
    · rw [if_pos hir]
      have hLB := seg_split s.nodes i 0 _ _ none hchain_i
      have hLseg : ChainSeg (setOp cmp s v r).nodes i 0
          (hFilter s.nodes i (ltIds cmp s.nodes v ids)) (some s.nodes.length) := by
        apply seg_retarget s.nodes (setOp cmp s v r).nodes i (some s.nodes.length) _ 0
          (frontOpt (hFilter s.nodes i (geIds cmp s.nodes v ids)) none) hLB.1
        · have hsub : (0 :: hFilter s.nodes i (ltIds cmp s.nodes v ids)).Sublist (0 :: ids) := by
            refine List.Sublist.cons₂ 0 ?_
            exact ((hFilter_sublist s.nodes i _).trans (ltIds_sublist cmp s.nodes v ids))
          exact wf.nodup.sublist hsub
        · intro x hx
          have hxne : x ≠ s.nodes.length := by
            rcases List.mem_cons.1 hx with rfl | hx2
            · omega
            · have := wf.bounds x (hmemA x ((hFilter_sublist s.nodes i _).subset hx2))
              omega
          by_cases hlast : x = lastD 0 (hFilter s.nodes i (ltIds cmp s.nodes v ids))
          · rw [if_pos hlast, hgf, if_neg (fun hcc => hxne hcc.2), if_pos ⟨hir, hlast⟩]
          · rw [if_neg hlast, hgf, if_neg (fun hcc => hxne hcc.2),
              if_neg (fun hcc => hlast hcc.2), if_neg hxne]
      have hNseg : ChainSeg (setOp cmp s v r).nodes i s.nodes.length
          (hFilter s.nodes i (geIds cmp s.nodes v ids)) none := by
        have hfront : fwd (setOp cmp s v r).nodes s.nodes.length i =
            frontOpt (hFilter s.nodes i (geIds cmp s.nodes v ids)) none := by
          rw [hgf, if_pos ⟨hir, rfl⟩]
        cases hBf : hFilter s.nodes i (geIds cmp s.nodes v ids) with
        | nil =>
          show fwd (setOp cmp s v r).nodes s.nodes.length i = none
          rw [hfront, hBf]
          rfl
        | cons b Bs =>
          rw [hBf] at hfront
          refine ⟨hfront, ?_⟩
          have hpchain := predAt_chain lc wf v i
          rw [hBf] at hpchain
          apply seg_congr s.nodes _ i b Bs none ?_ hpchain.2
          intro y hy
          have hyB : y ∈ hFilter s.nodes i (geIds cmp s.nodes v ids) := by
            rw [hBf]
            exact hy
          have hymem : y ∈ geIds cmp s.nodes v ids := (mem_hFilter.1 hyB).1
          have hyne : y ≠ s.nodes.length := by
            have := wf.bounds y (hmemB y hymem)
            omega
          have hynp : y ≠ predAt cmp s.nodes v ids i := by
            intro hcc
            rcases predAt_mem_or cmp s.nodes v ids i with h0 | ⟨hm, hP⟩
            · rw [hcc, h0] at hymem
              have h0mem : (0 : Nat) ∈ ids := hmemB 0 hymem
              exact wf.zero_not_mem h0mem
            · rw [← hcc] at hP
              exact (mem_geIds.1 hymem).2 hP
          rw [hgf, if_neg (fun hcc => hyne hcc.2), if_neg (fun hcc => hynp hcc.2), if_neg hyne]
      exact seg_compose (setOp cmp s v r).nodes i 0 s.nodes.length _ _ none hLseg hNseg
    · rw [if_neg hir]
      apply seg_congr s.nodes _ i 0 _ none ?_ hchain_i
      intro y hy
      have hyne : y ≠ s.nodes.length := by
        rcases List.mem_cons.1 hy with rfl | hy2
        · omega
        · rcases List.mem_append.1 hy2 with hyA | hyB
          · have := wf.bounds y (hmemA y ((hFilter_sublist s.nodes i _).subset hyA))
            omega
          · have := wf.bounds y (hmemB y ((hFilter_sublist s.nodes i _).subset hyB))
            omega
      rw [hgf, if_neg (fun hcc => hir hcc.1), if_neg (fun hcc => hir hcc.1), if_neg hyne]
  have hsorted : (ltIds cmp s.nodes v ids ++ s.nodes.length :: geIds cmp s.nodes v ids).Pairwise
      (fun a b => cmp (dataOf (setOp cmp s v r).nodes a) (dataOf (setOp cmp s v r).nodes b) = -1) := by
    have hd : ∀ x ∈ ids, dataOf (setOp cmp s v r).nodes x = dataOf s.nodes x := by
      intro x hx
      rw [hgd, if_neg ?_]
      have := wf.bounds x hx
      omega
    have hdn : dataOf (setOp cmp s v r).nodes s.nodes.length = v := by
      rw [hgd, if_pos rfl]
    have hidsPW := wf.sorted
    rw [hsplit] at hidsPW
    obtain ⟨hA, hB, hAB⟩ := List.pairwise_append.1 hidsPW
    rw [List.pairwise_append]
    refine ⟨?_, ?_, ?_⟩
    · apply hA.imp_of_mem
      intro a b ha hb hab
      rw [hd a (hmemA a ha), hd b (hmemA b hb)]
      exact hab
    · rw [List.pairwise_cons]
      constructor
      · intro b hb
        rw [hdn, hd b (hmemB b hb)]
        have hnlt : ¬ cmp (dataOf s.nodes b) v = -1 := (mem_geIds.1 hb).2
        have hne0 : cmp (dataOf s.nodes b) v ≠ 0 := habs b (hmemB b hb)
        have h1 : cmp (dataOf s.nodes b) v = 1 := by
          rcases lc.range (dataOf s.nodes b) v with hc | hc | hc
          · exact absurd hc hnlt
          · exact absurd hc hne0
          · exact hc
        have := lc.flip (dataOf s.nodes b) v
        omega
      · apply hB.imp_of_mem
        intro a b ha hb hab
        rw [hd a (hmemB a ha), hd b (hmemB b hb)]
        exact hab
    · intro a ha y hy
      rcases List.mem_cons.1 hy with rfl | hyB
      · rw [hd a (hmemA a ha), hdn]
        exact (mem_ltIds.1 ha).2
      · rw [hd a (hmemA a ha), hd y (hmemB y hyB)]
        exact hAB a ha y hyB
  have hnodup : (0 :: (ltIds cmp s.nodes v ids ++ s.nodes.length :: geIds cmp s.nodes v ids)).Nodup := by
    rw [List.nodup_cons]
    constructor
    · intro hmem
      rcases List.mem_append.1 hmem with hA | hC
      · exact wf.zero_not_mem (hmemA 0 hA)
      · rcases List.mem_cons.1 hC with h0 | hB
        · omega
        · exact wf.zero_not_mem (hmemB 0 hB)
    · rw [List.nodup_middle]
      rw [List.nodup_cons]
      refine ⟨?_, ?_⟩
      · rw [← hsplit]
        exact hnotmem
      · rw [← hsplit]
        exact wf.ids_nodup
  refine ⟨by rw [hhd, wf.header0], by rw [hglen2]; omega, ?_, by rw [hml]; exact wf.maxpos,
    ?_, hnodup, ?_, hsorted, ?_, ?_, ?_, ?_⟩
  · rw [hgh, hml]
    rw [if_neg ?_]
    · exact wf.hfwdlen
    · omega
  · rw [hlvl, hml]
    have := wf.lvlmax
    split <;> omega
  · intro id hid
    rw [hglen2]
    rcases List.mem_append.1 hid with hA | hC
    · have := wf.bounds id (hmemA id hA)
      omega
    · rcases List.mem_cons.1 hC with rfl | hB
      · omega
      · have := wf.bounds id (hmemB id hB)
        omega
  · intro id hid
    rw [hgh]
    rcases List.mem_append.1 hid with hA | hC
    · rw [if_neg ?_]
      · exact wf.hpos id (hmemA id hA)
      · have := wf.bounds id (hmemA id hA)
        omega
    · rcases List.mem_cons.1 hC with rfl | hB
      · rw [if_pos rfl]
        omega
      · rw [if_neg ?_]
        · exact wf.hpos id (hmemB id hB)
        · have := wf.bounds id (hmemB id hB)
          omega
  · intro id hid
    rw [hgh, hlvl]
    rcases List.mem_append.1 hid with hA | hC
    · have h1 := wf.hbound id (hmemA id hA)
      have h2 := wf.bounds id (hmemA id hA)
      rw [if_neg (by omega)]
      split <;> omega
    · rcases List.mem_cons.1 hC with rfl | hB
      · rw [if_pos rfl]
        split <;> omega
      · have h1 := wf.hbound id (hmemB id hB)
        have h2 := wf.bounds id (hmemB id hB)
        rw [if_neg (by omega)]
        split <;> omega
  · exact hchains
  · rw [hlvl]
    by_cases hc : s.level < r
    · rw [if_pos hc]
      refine Or.inr ⟨s.nodes.length, ?_, ?_⟩
      · exact List.mem_append.2 (Or.inr (List.mem_cons_self _ _))
      · rw [hgh, if_pos rfl]
        omega
    · rw [if_neg hc]
      rcases wf.top with h0 | ⟨id, hid, hlt⟩
      · exact Or.inl h0
      · refine Or.inr ⟨id, ?_, ?_⟩
        · rw [hsplit] at hid
          rcases List.mem_append.1 hid with hA | hB
          · exact List.mem_append.2 (Or.inl hA)
          · exact List.mem_append.2 (Or.inr (List.mem_cons_of_mem _ hB))
        · rw [hgh, if_neg ?_]
          · exact hlt
          · have := wf.bounds id hid
            omega

/-! ### `Delete` -/

/-- Deleting an absent key leaves the state literally unchanged. -/
lemma deleteOp_absent [Inhabited T] {cmp : T → T → Int} {s : SkipList T} {ids : List Nat}
    (lc : LawfulCmp cmp) (wf : WfIds cmp s ids) (t : T)
    (habs : ∀ x ∈ ids, cmp (dataOf s.nodes x) t ≠ 0) :
    deleteOp cmp s t = s := by
  have hc0 : (descendU cmp s.nodes t s.level s.header).1 = predAt cmp s.nodes t ids 0 :=
    (descendU_run lc wf t s.level s.header
      (by rw [wf.header0]; exact (predAt_top wf t).symm)).2.2
  have hfw : fwd s.nodes (descendU cmp s.nodes t s.level s.header).1 0 =
      frontOpt (geIds cmp s.nodes t ids) none := by
    rw [hc0, fwd_predAt lc wf t 0, hFilter_zero wf _ (geIds_sublist cmp s.nodes t ids)]
  simp only [deleteOp]
  rw [hfw]
  cases hB : geIds cmp s.nodes t ids with
  | nil => rfl
  | cons b B2 =>
    show (if cmp (dataOf s.nodes b) t = 0 then _ else s) = s
    rw [if_neg (habs b ((geIds_sublist cmp s.nodes t ids).subset (by rw [hB]; simp)))]

lemma deleteOp_present [Inhabited T] {cmp : T → T → Int} {s : SkipList T} {ids : List Nat}
    (lc : LawfulCmp cmp) (wf : WfIds cmp s ids) (t : T) {e : Nat} {B2 : List Nat}
    (hB : geIds cmp s.nodes t ids = e :: B2) (het : cmp (dataOf s.nodes e) t = 0) :
    WfIds cmp (deleteOp cmp s t) (ltIds cmp s.nodes t ids ++ B2) ∧
    (deleteOp cmp s t).maxLevel = s.maxLevel ∧
    (deleteOp cmp s t).header = s.header ∧
    (deleteOp cmp s t).level ≤ s.level ∧
    (deleteOp cmp s t).nodes.length = s.nodes.length ∧
    (∀ id, dataOf (deleteOp cmp s t).nodes id = dataOf s.nodes id) := by
  have hrun := descendU_run lc wf t s.level s.header
    (by rw [wf.header0]; exact (predAt_top wf t).symm)
  have hgetus : ∀ j, j ≤ s.level →
      (descendU cmp s.nodes t s.level s.header).2.getD j 0 = predAt cmp s.nodes t ids j :=
    hrun.2.1
  have hc0 : (descendU cmp s.nodes t s.level s.header).1 = predAt cmp s.nodes t ids 0 := hrun.2.2
  have hmemB : ∀ x ∈ geIds cmp s.nodes t ids, x ∈ ids :=
    fun x hx => (geIds_sublist cmp s.nodes t ids).subset hx
  have hmemA : ∀ x ∈ ltIds cmp s.nodes t ids, x ∈ ids :=
    fun x hx => (ltIds_sublist cmp s.nodes t ids).subset hx
  have hememb : e ∈ ids := hmemB e (by rw [hB]; simp)
  have helt : e < s.nodes.length := wf.bounds e hememb
  have hen0 : e ≠ 0 := by
    intro hcc
    rw [hcc] at hememb
    exact wf.zero_not_mem hememb
  have hhe1 : 1 ≤ heightOf s.nodes e := wf.hpos e hememb
  have hhele : heightOf s.nodes e ≤ s.level + 1 := wf.hbound e hememb
  have hsplit : ids = ltIds cmp s.nodes t ids ++ e :: B2 := by
    have := sorted_filter_split lc s.nodes t ids wf.sorted
    rwa [hB] at this
  have hBnodup : (e :: B2).Nodup := by
    rw [← hB]
    exact wf.ids_nodup.sublist (geIds_sublist cmp s.nodes t ids)
  have heB2 : e ∉ B2 := (List.nodup_cons.1 hBnodup).1
  have hfw : fwd s.nodes (descendU cmp s.nodes t s.level s.header).1 0 = some e := by
    rw [hc0, fwd_predAt lc wf t 0, hFilter_zero wf _ (geIds_sublist cmp s.nodes t ids), hB]
    rfl
  have hdel : deleteOp cmp s t = { s with
      nodes := relink (descendU cmp s.nodes t s.level s.header).2 e 0 (s.level + 1) s.nodes,
      level := shrink (relink (descendU cmp s.nodes t s.level s.header).2 e 0 (s.level + 1) s.nodes)
        s.header s.level } := by
    simp only [deleteOp]
    rw [hfw]
    show (if cmp (dataOf s.nodes e) t = 0 then _ else s) = _
    rw [if_pos het]
  have hpredne : ∀ j, predAt cmp s.nodes t ids j ≠ e := by
    intro j
    rcases predAt_mem_or cmp s.nodes t ids j with h0 | ⟨hm, hP⟩
    · rw [h0]
      exact fun hcc => hen0 hcc.symm
    · intro hcc
      rw [hcc, het] at hP
      omega
  have hrelink := relink_run (descendU cmp s.nodes t s.level s.header).2 e
    (heightOf s.nodes e) (s.level + 1) 0 s.nodes ?_ ?_
  · obtain ⟨hg2len, hg2h, hg2d, hg2f⟩ := hrelink
    have hgf : ∀ id j, fwd (relink (descendU cmp s.nodes t s.level s.header).2 e 0
        (s.level + 1) s.nodes) id j =
        if j ≤ s.level ∧ j < heightOf s.nodes e ∧ id = predAt cmp s.nodes t ids j then
          fwd s.nodes e j
        else fwd s.nodes id j := by
      intro id j
      rw [hg2f]
      by_cases hjl : j ≤ s.level
      · rw [hgetus j hjl]
        by_cases hc : 0 ≤ j ∧ j < 0 + (s.level + 1) ∧ j < heightOf s.nodes e ∧
            id = predAt cmp s.nodes t ids j
        · rw [if_pos hc, if_pos ⟨hjl, hc.2.2.1, hc.2.2.2⟩]
        · rw [if_neg hc, if_neg ?_]
          rintro ⟨hc1, hc2, hc3⟩
          exact hc ⟨by omega, by omega, hc2, hc3⟩
      · rw [if_neg (by omega), if_neg (by omega)]
    have hfilG : ∀ i (l : List Nat),
        hFilter (relink (descendU cmp s.nodes t s.level s.header).2 e 0 (s.level + 1) s.nodes) i l =
        hFilter s.nodes i l := by
      intro i l
      unfold hFilter
      apply List.filter_congr
      intro x _
      rw [hg2h x]
    rw [hdel]
    have hchains : ∀ i, ChainSeg (relink (descendU cmp s.nodes t s.level s.header).2 e 0
        (s.level + 1) s.nodes) i 0
        (hFilter (relink (descendU cmp s.nodes t s.level s.header).2 e 0 (s.level + 1) s.nodes) i
          (ltIds cmp s.nodes t ids ++ B2)) none := by
      intro i
      rw [hfilG, hFilter_append]
      have hchain_i := wf.chains i
      rw [hsplit, hFilter_append, hFilter_cons] at hchain_i
      by_cases hihe : i < heightOf s.nodes e
      · rw [if_pos hihe] at hchain_i
        have hile : i ≤ s.level := by omega
        have hLB := seg_split s.nodes i 0 _ _ none hchain_i
        have hLB2 := hLB.2
        have hfront_e : fwd s.nodes e i =
            frontOpt (hFilter s.nodes i B2) none := by
          have := hLB2.2
          exact seg_front s.nodes i e _ none this
        have hLseg : ChainSeg (relink (descendU cmp s.nodes t s.level s.header).2 e 0
            (s.level + 1) s.nodes) i 0 (hFilter s.nodes i (ltIds cmp s.nodes t ids))
            (fwd s.nodes e i) := by
          apply seg_retarget s.nodes _ i (fwd s.nodes e i) _ 0
            (frontOpt (e :: hFilter s.nodes i B2) none) hLB.1
          · refine wf.nodup.sublist (List.Sublist.cons₂ 0 ?_)
            exact (hFilter_sublist s.nodes i _).trans (ltIds_sublist cmp s.nodes t ids)
          · intro x hx
            by_cases hlast : x = lastD 0 (hFilter s.nodes i (ltIds cmp s.nodes t ids))
            · rw [if_pos hlast, hgf, if_pos ⟨hile, hihe, hlast⟩]
            · rw [if_neg hlast, hgf, if_neg (fun hcc => hlast hcc.2.2)]
        cases hBf : hFilter s.nodes i B2 with
        | nil =>
          rw [hBf] at hfront_e
          rw [List.append_nil]
          have hnone : fwd s.nodes e i = none := hfront_e
          rw [← hnone]
          exact hLseg
        | cons b Bs =>
          rw [hBf] at hfront_e
          have hsome : fwd s.nodes e i = some b := hfront_e
          have hLseg2 : ChainSeg (relink (descendU cmp s.nodes t s.level s.header).2 e 0
              (s.level + 1) s.nodes) i 0 (hFilter s.nodes i (ltIds cmp s.nodes t ids))
              (some b) := by
            rw [← hsome]
            exact hLseg
          have hBseg : ChainSeg (relink (descendU cmp s.nodes t s.level s.header).2 e 0
              (s.level + 1) s.nodes) i b Bs none := by
            have hec : ChainSeg s.nodes i e (hFilter s.nodes i B2) none := hLB2.2
            rw [hBf] at hec
            have hbchain : ChainSeg s.nodes i b Bs none := hec.2
            apply seg_congr s.nodes _ i b Bs none ?_ hbchain
            intro y hy
            have hyB2 : y ∈ B2 := by
              have hy2 : y ∈ hFilter s.nodes i B2 := by
                rw [hBf]
                exact hy
              exact (mem_hFilter.1 hy2).1
            have hygeIds : y ∈ geIds cmp s.nodes t ids := by
              rw [hB]
              exact List.mem_cons_of_mem e hyB2
            have hynp : y ≠ predAt cmp s.nodes t ids i := by
              intro hcc
              rcases predAt_mem_or cmp s.nodes t ids i with h0 | ⟨hm, hP⟩
              · rw [hcc, h0] at hygeIds
                exact wf.zero_not_mem (hmemB 0 hygeIds)
              · rw [← hcc] at hP
                exact (mem_geIds.1 hygeIds).2 hP
            rw [hgf, if_neg (fun hcc => hynp hcc.2.2)]
          exact seg_compose _ i 0 b _ _ none hLseg2 hBseg
      · rw [if_neg hihe] at hchain_i
        apply seg_congr s.nodes _ i 0 _ none ?_ hchain_i
        intro y hy
        rw [hgf, if_neg (fun hcc => hihe hcc.2.1)]
    have hshr := shrink_run (relink (descendU cmp s.nodes t s.level s.header).2 e 0
      (s.level + 1) s.nodes) s.header s.level
    have hfwd0 : ∀ i, fwd (relink (descendU cmp s.nodes t s.level s.header).2 e 0
        (s.level + 1) s.nodes) s.header i = fwd (relink (descendU cmp s.nodes t s.level
        s.header).2 e 0 (s.level + 1) s.nodes) 0 i := by
      rw [wf.header0]
      intro i
      rfl
    refine ⟨?_, rfl, rfl, hshr.1, hg2len, hg2d⟩
    have hids2sub : (ltIds cmp s.nodes t ids ++ B2).Sublist ids := by
      nth_rewrite 2 [hsplit]
      exact List.Sublist.append_left (List.sublist_cons_self e B2) _
    have hmem2 : ∀ x ∈ ltIds cmp s.nodes t ids ++ B2, x ∈ ids :=
      fun x hx => hids2sub.subset hx
    refine ⟨wf.header0, by rw [hg2len]; exact wf.hlen,
      by rw [hg2h]; exact wf.hfwdlen, wf.maxpos,
      by show shrink (relink (descendU cmp s.nodes t s.level s.header).2 e 0
          (s.level + 1) s.nodes) s.header s.level < s.maxLevel
         have h1 := wf.lvlmax
         have h2 := hshr.1
         omega,
      ?_, fun id hid => by rw [hg2len]; exact wf.bounds id (hmem2 id hid), ?_,
      fun id hid => by rw [hg2h]; exact wf.hpos id (hmem2 id hid), ?_, hchains, ?_⟩
    · exact wf.nodup.sublist (List.Sublist.cons₂ 0 hids2sub)
    · apply (wf.sorted.sublist hids2sub).imp_of_mem
      intro a b ha hb hab
      rw [hg2d a, hg2d b]
      exact hab
    · intro id hid
      show heightOf (relink (descendU cmp s.nodes t s.level s.header).2 e 0
        (s.level + 1) s.nodes) id ≤ shrink (relink (descendU cmp s.nodes t s.level
        s.header).2 e 0 (s.level + 1) s.nodes) s.header s.level + 1
      rw [hg2h]
      have hhb := wf.hbound id (hmem2 id hid)
      by_cases hle : shrink (relink (descendU cmp s.nodes t s.level s.header).2 e 0
          (s.level + 1) s.nodes) s.header s.level = s.level
      · rw [hle]
        exact hhb
      · have hlt : shrink (relink (descendU cmp s.nodes t s.level s.header).2 e 0
            (s.level + 1) s.nodes) s.header s.level < s.level := by
          have := hshr.1
          omega
        by_contra hcon
        push_neg at hcon
        have hwitness : id ∈ hFilter (relink (descendU cmp s.nodes t s.level s.header).2 e 0
            (s.level + 1) s.nodes)
            (shrink (relink (descendU cmp s.nodes t s.level s.header).2 e 0
              (s.level + 1) s.nodes) s.header s.level + 1)
            (ltIds cmp s.nodes t ids ++ B2) := by
          rw [mem_hFilter, hg2h]
          exact ⟨hid, by omega⟩
        have hchain := hchains (shrink (relink (descendU cmp s.nodes t s.level s.header).2 e 0
          (s.level + 1) s.nodes) s.header s.level + 1)
        have hnone := hshr.2.2 (shrink (relink (descendU cmp s.nodes t s.level s.header).2 e 0
          (s.level + 1) s.nodes) s.header s.level + 1) (by omega) (by omega)
        rw [hfwd0] at hnone
        cases hFf : hFilter (relink (descendU cmp s.nodes t s.level s.header).2 e 0
            (s.level + 1) s.nodes)
            (shrink (relink (descendU cmp s.nodes t s.level s.header).2 e 0
              (s.level + 1) s.nodes) s.header s.level + 1)
            (ltIds cmp s.nodes t ids ++ B2) with
        | nil =>
          rw [hFf] at hwitness
          simp at hwitness
        | cons z zs =>
          rw [hFf] at hchain
          exact absurd (hchain.1.symm.trans hnone) (by simp)
    · rcases hshr.2.1 with h0 | hne
      · exact Or.inl h0
      · rw [hfwd0] at hne
        cases hFf : hFilter (relink (descendU cmp s.nodes t s.level s.header).2 e 0
            (s.level + 1) s.nodes)
            (shrink (relink (descendU cmp s.nodes t s.level s.header).2 e 0
              (s.level + 1) s.nodes) s.header s.level)
            (ltIds cmp s.nodes t ids ++ B2) with
        | nil =>
          exfalso
          have hchain := hchains (shrink (relink (descendU cmp s.nodes t s.level s.header).2 e 0
            (s.level + 1) s.nodes) s.header s.level)
          rw [hFf] at hchain
          exact hne hchain
        | cons z zs =>
          have hchain := hchains (shrink (relink (descendU cmp s.nodes t s.level s.header).2 e 0
            (s.level + 1) s.nodes) s.header s.level)
          rw [hFf] at hchain
          have hzmem : z ∈ hFilter (relink (descendU cmp s.nodes t s.level s.header).2 e 0
              (s.level + 1) s.nodes)
              (shrink (relink (descendU cmp s.nodes t s.level s.header).2 e 0
                (s.level + 1) s.nodes) s.header s.level)
              (ltIds cmp s.nodes t ids ++ B2) := by
            rw [hFf]
            simp
          obtain ⟨hz1, hz2⟩ := mem_hFilter.1 hzmem
          exact Or.inr ⟨z, hz1, hz2⟩
  · intro j hj0 hjk hjhe
    rw [hgetus j (by omega)]
    refine ⟨?_, predAt_lt_length wf t j, predAt_height wf t j (by have := wf.lvlmax; omega),
      hpredne j⟩
    rw [fwd_predAt lc wf t j, hB, hFilter_cons, if_pos hjhe]
    rfl
  · intro j hj0 hjk hjhe
    rw [hgetus j (by omega), fwd_predAt lc wf t j, hB, hFilter_cons, if_neg hjhe]
    cases hBf : hFilter s.nodes j B2 with
    | nil => simp [frontOpt]
    | cons b Bs =>
      show some b ≠ some e
      intro hcc
      have hbmem : b ∈ B2 := by
        have : b ∈ hFilter s.nodes j B2 := by rw [hBf]; simp
        exact (mem_hFilter.1 this).1
      rw [Option.some.injEq] at hcc
      rw [hcc] at hbmem
      exact heB2 hbmem

/-! ### Reachability -/

/-- A fresh list is well-formed (with the empty chain). -/
lemma wfIds_newList [Inhabited T] (cmp : T → T → Int) (m : Nat) (hm : 1 ≤ m) :
    WfIds cmp ((newList m : SkipList T)) [] := by
  refine ⟨rfl, by simp [newList], ?_, hm, by simpa using hm, by simp, by simp,
    List.Pairwise.nil, by simp, by simp, ?_, Or.inl rfl⟩
  · show heightOf [{ data := (default : T), forward := List.replicate (m + 1) none }] 0 = m + 1
    unfold heightOf nodeAt
    simp
  · intro i
    show fwd ((newList m : SkipList T)).nodes 0 i = none
    unfold newList fwd nodeAt
    simp [getD_replicate_opt]

lemma setOp_wf [Inhabited T] {cmp : T → T → Int} {s : SkipList T}
    (lc : LawfulCmp cmp) (hwf : Wf cmp s) (v : T) (r : Nat) (hr : r < s.maxLevel) :
    Wf cmp (setOp cmp s v r) ∧ (setOp cmp s v r).maxLevel = s.maxLevel := by
  obtain ⟨ids, wf⟩ := hwf
  by_cases hp : ∃ e ∈ ids, cmp (dataOf s.nodes e) v = 0
  · obtain ⟨e, he, hev⟩ := hp
    obtain ⟨w2, hml, _⟩ := setOp_present lc wf v r he hev
    exact ⟨⟨ids, w2⟩, hml⟩
  · push_neg at hp
    obtain ⟨w2, hml, _⟩ := setOp_absent lc wf v r hr hp
    exact ⟨⟨_, w2⟩, hml⟩

lemma deleteOp_wf [Inhabited T] {cmp : T → T → Int} {s : SkipList T}
    (lc : LawfulCmp cmp) (hwf : Wf cmp s) (t : T) :
    Wf cmp (deleteOp cmp s t) ∧ (deleteOp cmp s t).maxLevel = s.maxLevel := by
  obtain ⟨ids, wf⟩ := hwf
  by_cases hp : ∃ x ∈ ids, cmp (dataOf s.nodes x) t = 0
  · obtain ⟨e2, B2, hB, het⟩ := (equal_mem_iff_head lc wf t).1 hp
    obtain ⟨w2, hml, _⟩ := deleteOp_present lc wf t hB het
    exact ⟨⟨_, w2⟩, hml⟩
  · push_neg at hp
    rw [deleteOp_absent lc wf t hp]
    exact ⟨⟨ids, wf⟩, rfl⟩

/-- A program against the list: the `Set` calls carry the level drawn by
`randomLevel()` for that call. -/
inductive SLOp (T : Type u) where
  | set (v : T) (r : Nat)
  | del (t : T)

/-- Run one operation. -/
def applyOp [Inhabited T] (cmp : T → T → Int) (s : SkipList T) : SLOp T → SkipList T
  | .set v r => setOp cmp s v r
  | .del t => deleteOp cmp s t

/-- Run a program front to back. -/
def execOps [Inhabited T] (cmp : T → T → Int) : List (SLOp T) → SkipList T → SkipList T
  | [], s => s
  | op :: rest, s => execOps cmp rest (applyOp cmp s op)

/-- Every `Set` in the program drew its level from `[0, m)`, as
`rand.Intn(maxLevel)` guarantees. -/
def opsOk (m : Nat) : List (SLOp T) → Prop :=
  fun ops => ∀ op ∈ ops, match op with
    | SLOp.set _ r => r < m
    | SLOp.del _ => True

/-- Run a sequence of `Set` calls (value and drawn level). -/
def execSets [Inhabited T] (cmp : T → T → Int) : List (T × Nat) → SkipList T → SkipList T
  | [], s => s
  | p :: rest, s => execSets cmp rest (setOp cmp s p.1 p.2)

lemma execSets_wf [Inhabited T] {cmp : T → T → Int} (lc : LawfulCmp cmp) :
    ∀ (ops : List (T × Nat)) (s : SkipList T), Wf cmp s → (∀ p ∈ ops, p.2 < s.maxLevel) →
      Wf cmp (execSets cmp ops s) ∧ (execSets cmp ops s).maxLevel = s.maxLevel := by
  intro ops
  induction ops with
  | nil => exact fun s hwf _ => ⟨hwf, rfl⟩
  | cons p rest ih =>
    intro s hwf hops
    obtain ⟨hwf2, hml2⟩ := setOp_wf lc hwf p.1 p.2 (hops p (by simp))
    obtain ⟨hwf3, hml3⟩ := ih (setOp cmp s p.1 p.2) hwf2
      (fun q hq => by rw [hml2]; exact hops q (by simp [hq]))
    exact ⟨hwf3, hml3.trans hml2⟩

lemma execOps_wf [Inhabited T] {cmp : T → T → Int} (lc : LawfulCmp cmp) :
    ∀ (ops : List (SLOp T)) (s : SkipList T), Wf cmp s → opsOk s.maxLevel ops →
      Wf cmp (execOps cmp ops s) ∧ (execOps cmp ops s).maxLevel = s.maxLevel := by
  intro ops
  induction ops with
  | nil => exact fun s hwf _ => ⟨hwf, rfl⟩
  | cons op rest ih =>
    intro s hwf hops
    have hstep : Wf cmp (applyOp cmp s op) ∧ (applyOp cmp s op).maxLevel = s.maxLevel := by
      cases op with
      | set v r => exact setOp_wf lc hwf v r (hops (SLOp.set v r) (by simp))
      | del t => exact deleteOp_wf lc hwf t
    obtain ⟨hwf2, hml2⟩ := hstep
    obtain ⟨hwf3, hml3⟩ := ih (applyOp cmp s op) hwf2
      (fun q hq => by rw [hml2]; exact hops q (by simp [hq]))
    exact ⟨hwf3, hml3.trans hml2⟩

/-- The level bookkeeping invariant I4: above the current level the header has
no successor, and at the current level it has one unless the level is 0. -/
lemma WfIds.levelInv [Inhabited T] {cmp : T → T → Int} {s : SkipList T} {ids : List Nat}
    (wf : WfIds cmp s ids) :
    (∀ i, s.level < i → fwd s.nodes s.header i = none) ∧
    (s.level = 0 ∨ fwd s.nodes s.header s.level ≠ none) := by
  constructor
  · intro i hi
    have hchain := wf.chains i
    have hempty : hFilter s.nodes i ids = [] := by
      simp only [hFilter, List.filter_eq_nil_iff]
      intro x hx
      have := wf.hbound x hx
      simp
      omega
    rw [hempty] at hchain
    rw [wf.header0]
    exact hchain
  · rcases wf.top with h0 | ⟨id, hid, hlt⟩
    · exact Or.inl h0
    · right
      have hchain := wf.chains s.level
      have hmem : id ∈ hFilter s.nodes s.level ids := mem_hFilter.2 ⟨hid, hlt⟩
      cases hF : hFilter s.nodes s.level ids with
      | nil =>
        rw [hF] at hmem
        simp at hmem
      | cons z zs =>
        rw [hF] at hchain
        rw [wf.header0, hchain.1]
        simp

/-! ### Iterator runs -/

lemma iter_chain [Inhabited T] (h : Heap T) :
    ∀ (l : List Nat) (p : Nat), ChainSeg h 0 p l none →
      (∀ k, k < l.length → (iterSteps h k { current := fwd h p 0 }).valid = true) ∧
      iterSteps h l.length { current := fwd h p 0 } = { current := none } ∧
      iterVisit h l.length { current := fwd h p 0 } = l.map (dataOf h) := by
  intro l
  induction l with
  | nil =>
    intro p hs
    have hn : fwd h p 0 = none := hs
    refine ⟨fun k hk => by simp at hk, by rw [hn]; rfl, by rw [hn]; rfl⟩
  | cons x xs ih =>
    intro p hs
    have hx : fwd h p 0 = some x := hs.1
    obtain ⟨ihv, ihs, ihd⟩ := ih x hs.2
    rw [hx]
    have hnext : nextOp h { current := some x } = { current := fwd h x 0 } := rfl
    refine ⟨?_, ?_, ?_⟩
    · intro k hk
      cases k with
      | zero => rfl
      | succ k2 =>
        show (iterSteps h k2 (nextOp h { current := some x })).valid = true
        rw [hnext]
        exact ihv k2 (by simpa using hk)
    · show iterSteps h xs.length (nextOp h { current := some x }) = { current := none }
      rw [hnext]
      exact ihs
    · show dataOf h x :: iterVisit h xs.length (nextOp h { current := some x }) =
        dataOf h x :: xs.map (dataOf h)
      rw [hnext, ihd]

/-! ### Unconditional level bookkeeping of the operations -/

lemma setOp_maxLevel [Inhabited T] (cmp : T → T → Int) (s : SkipList T) (v : T) (r : Nat) :
    (setOp cmp s v r).maxLevel = s.maxLevel := by
  simp only [setOp]
  split <;> rfl

lemma setOp_level_raise [Inhabited T] (cmp : T → T → Int) (s : SkipList T) (v : T) (r : Nat) :
    (setOp cmp s v r).level = s.level ∨ (s.level < r ∧ (setOp cmp s v r).level = r) := by
  simp only [setOp]
  split
  · exact Or.inl rfl
  · by_cases hc : s.level < r
    · exact Or.inr ⟨hc, by simp [hc]⟩
    · exact Or.inl (by simp [hc])

lemma deleteOp_level_le [Inhabited T] (cmp : T → T → Int) (s : SkipList T) (k : T) :
    (deleteOp cmp s k).level ≤ s.level := by
  simp only [deleteOp]
  cases fwd s.nodes (descendU cmp s.nodes k s.level s.header).1 0 with
  | none => exact Nat.le_refl _
  | some cur =>
    by_cases hc : cmp (dataOf s.nodes cur) k = 0
    · simp only [hc, ite_true]
      exact (shrink_run _ _ _).1
    · simp [hc]

/-! ### Tracking an exactly-stored value (for the round-trip property) -/

/-- The list stores the exact value `v` at some chain node. -/
def HasExact [Inhabited T] (cmp : T → T → Int) (s : SkipList T) (v : T) : Prop :=
  ∃ ids e, WfIds cmp s ids ∧ e ∈ ids ∧ dataOf s.nodes e = v

lemma setOp_hasExact [Inhabited T] {cmp : T → T → Int} {s : SkipList T}
    (lc : LawfulCmp cmp) (hwf : Wf cmp s) (v : T) (r : Nat) (hr : r < s.maxLevel) :
    HasExact cmp (setOp cmp s v r) v := by
  obtain ⟨ids, wf⟩ := hwf
  by_cases hp : ∃ x ∈ ids, cmp (dataOf s.nodes x) v = 0
  · obtain ⟨e, he, hev⟩ := hp
    obtain ⟨w2, _, _, _, _, _, _, hdE, _⟩ := setOp_present lc wf v r he hev
    exact ⟨ids, e, w2, he, hdE⟩
  · push_neg at hp
    obtain ⟨w2, _, _, _, _, hdN, _⟩ := setOp_absent lc wf v r hr hp
    exact ⟨_, s.nodes.length, w2,
      List.mem_append.2 (Or.inr (List.mem_cons_self _ _)), hdN⟩

lemma hasExact_set [Inhabited T] {cmp : T → T → Int} {s : SkipList T} {v : T}
    (lc : LawfulCmp cmp) (h : HasExact cmp s v) (w : T) (r : Nat)
    (hr : r < s.maxLevel) (hw : cmp w v ≠ 0) :
    HasExact cmp (setOp cmp s w r) v := by
  obtain ⟨ids, e, wf, he, hde⟩ := h
  by_cases hp : ∃ x ∈ ids, cmp (dataOf s.nodes x) w = 0
  · obtain ⟨ew, hew, hewc⟩ := hp
    obtain ⟨w2, _, _, _, _, _, _, _, hoth⟩ := setOp_present lc wf w r hew hewc
    have hne : e ≠ ew := by
      intro hcc
      rw [← hcc] at hewc
      rw [hde] at hewc
      exact hw (lc.eq_symm hewc)
    exact ⟨ids, e, w2, he, by rw [hoth e hne]; exact hde⟩
  · push_neg at hp
    obtain ⟨w2, _, _, _, _, _, hoth⟩ := setOp_absent lc wf w r hr hp
    refine ⟨_, e, w2, ?_, ?_⟩
    · have hsplit := sorted_filter_split lc s.nodes w ids wf.sorted
      rw [hsplit] at he
      rcases List.mem_append.1 he with hA | hB
      · exact List.mem_append.2 (Or.inl hA)
      · exact List.mem_append.2 (Or.inr (List.mem_cons_of_mem _ hB))
    · rw [hoth e ?_]
      · exact hde
      · have := wf.bounds e he
        omega

lemma hasExact_execSets [Inhabited T] {cmp : T → T → Int} {v : T} (lc : LawfulCmp cmp) :
    ∀ (ops : List (T × Nat)) (s : SkipList T), HasExact cmp s v →
      (∀ p ∈ ops, cmp p.1 v ≠ 0 ∧ p.2 < s.maxLevel) →
      HasExact cmp (execSets cmp ops s) v := by
  intro ops
  induction ops with
  | nil => exact fun s h _ => h
  | cons p rest ih =>
    intro s h hops
    obtain ⟨hne, hrp⟩ := hops p (by simp)
    refine ih (setOp cmp s p.1 p.2) (hasExact_set lc h p.1 p.2 hrp hne) ?_
    intro q hq
    rw [setOp_maxLevel]
    exact hops q (by simp [hq])

lemma hasExact_search [Inhabited T] {cmp : T → T → Int} {s : SkipList T} {v : T}
    (lc : LawfulCmp cmp) (h : HasExact cmp s v) (t : T) (ht : cmp v t = 0) :
    searchOp cmp s t = some v := by
  obtain ⟨ids, e, wf, he, hde⟩ := h
  have het : cmp (dataOf s.nodes e) t = 0 := by
    rw [hde]
    exact ht
  rw [searchOp_eq_some lc wf he het, hde]

/-! ### A concrete lawful comparator on integers -/

/-- The integer comparator used in the concrete instances (the shape of
`cmpData` in the repository's tests). -/
def intCmp (a b : Int) : Int :=
  if a < b then -1 else if b < a then 1 else 0

lemma intCmp_lawful : LawfulCmp intCmp := by
  refine ⟨?_, ?_, ?_, ?_⟩
  · intro a b
    unfold intCmp
    split_ifs <;> omega
  · intro a b
    unfold intCmp
    split_ifs <;> omega
  · intro a b c h1 h2
    unfold intCmp at h1 h2 ⊢
    split_ifs at h1 h2 ⊢ <;> omega
  · intro a b c h
    unfold intCmp at h ⊢
    split_ifs at h ⊢ <;> omega

/-! ### The claims -/

/-- C1: for every finite sequence of `Set` calls on a list freshly constructed
with `New(maxLevel, compare)` where `compare` is a total order, `Sorted()`
returns the stored values in strictly increasing order under `compare` (hence
non-decreasing and with no duplicate keys). -/
theorem set_sequences_sorted_strict [Inhabited T] {cmp : T → T → Int}
    (lc : LawfulCmp cmp) (m : Nat) (hm : 1 ≤ m) (ops : List (T × Nat))
    (hops : ∀ p ∈ ops, p.2 < m) :
    (sortedOp (execSets cmp ops ((newList m : SkipList T)))).Pairwise
      (fun a b => cmp a b = -1) := by
  have hwf0 : Wf cmp ((newList m : SkipList T)) := ⟨[], wfIds_newList cmp m hm⟩
  obtain ⟨⟨ids, wf⟩, _⟩ := execSets_wf lc ops ((newList m : SkipList T)) hwf0
    (fun p hp => hops p hp)
  rw [wf.sortedOp_eq]
  exact List.pairwise_map.2 wf.sorted

/-- C1 witness at a concrete instance. -/
theorem set_sequences_sorted_strict_witness :
    LawfulCmp intCmp ∧ 1 ≤ 3 ∧ (∀ p ∈ [((5 : Int), 0), ((2 : Int), 1), ((8 : Int), 2)], p.2 < 3) ∧
    (sortedOp (execSets intCmp [((5 : Int), 0), ((2 : Int), 1), ((8 : Int), 2)]
      ((newList 3 : SkipList Int)))).Pairwise (fun a b => intCmp a b = -1) :=
  ⟨intCmp_lawful, by decide, by decide,
    set_sequences_sorted_strict intCmp_lawful 3 (by decide)
      [((5 : Int), 0), ((2 : Int), 1), ((8 : Int), 2)] (by decide)⟩

/-- C2: after `Set(v)`, searching any target whose key compares equal to `v`
returns exactly `v` (no error), and this survives any interleaved `Set` calls
with keys distinct from `v`'s. -/
theorem set_search_round_trip [Inhabited T] {cmp : T → T → Int} (lc : LawfulCmp cmp)
    (s : SkipList T) (hwf : Wf cmp s) (v t : T) (r : Nat) (hr : r < s.maxLevel)
    (ht : cmp v t = 0) (ops : List (T × Nat))
    (hops : ∀ p ∈ ops, cmp p.1 v ≠ 0 ∧ p.2 < s.maxLevel) :
    searchOp cmp (execSets cmp ops (setOp cmp s v r)) t = some v := by
  have h1 : HasExact cmp (setOp cmp s v r) v := setOp_hasExact lc hwf v r hr
  have h2 : HasExact cmp (execSets cmp ops (setOp cmp s v r)) v := by
    refine hasExact_execSets lc ops _ h1 ?_
    intro p hp
    rw [setOp_maxLevel]
    exact hops p hp
  exact hasExact_search lc h2 t ht

/-- C2 witness at a concrete instance. -/
theorem set_search_round_trip_witness :
    LawfulCmp intCmp ∧ Wf intCmp ((newList 3 : SkipList Int)) ∧
    0 < ((newList 3 : SkipList Int)).maxLevel ∧ intCmp 4 4 = 0 ∧
    (∀ p ∈ [((7 : Int), 1)], intCmp p.1 4 ≠ 0 ∧ p.2 < ((newList 3 : SkipList Int)).maxLevel) ∧
    searchOp intCmp (execSets intCmp [((7 : Int), 1)]
      (setOp intCmp ((newList 3 : SkipList Int)) 4 0)) 4 = some 4 :=
  ⟨intCmp_lawful, ⟨[], wfIds_newList intCmp 3 (by decide)⟩, by decide, by decide, by decide,
    set_search_round_trip intCmp_lawful ((newList 3 : SkipList Int))
      ⟨[], wfIds_newList intCmp 3 (by decide)⟩ 4 4 0 (by decide) (by decide)
      [((7 : Int), 1)] (by decide)⟩

/-- What the update-semantics claim asserts about `Set(v1); Set(v2)` with equal
keys: unchanged length, `Search` sees `v2`, and no structural change (same
level, no allocation, identical forward links and node heights). -/
def UpdatePost [Inhabited T] (cmp : T → T → Int) (s1 s2 : SkipList T) (v2 : T) : Prop :=
  lenOp s2 = lenOp s1 ∧ searchOp cmp s2 v2 = some v2 ∧
  s2.level = s1.level ∧ s2.nodes.length = s1.nodes.length ∧
  (∀ id, heightOf s2.nodes id = heightOf s1.nodes id) ∧
  (∀ id j, fwd s2.nodes id j = fwd s1.nodes id j)

/-- C3: `Set(v1)` then `Set(v2)` with equal keys updates in place: `Len()` is
unchanged, `Search` returns `v2`, and there is no structural change (no new
node, no forward link altered, no level re-roll). -/
theorem set_update_semantics [Inhabited T] {cmp : T → T → Int} (lc : LawfulCmp cmp)
    (s : SkipList T) (hwf : Wf cmp s) (v1 v2 : T) (r1 r2 : Nat)
    (h12 : cmp v1 v2 = 0) (hr1 : r1 < s.maxLevel) :
    UpdatePost cmp (setOp cmp s v1 r1) (setOp cmp (setOp cmp s v1 r1) v2 r2) v2 := by
  obtain ⟨ids1, e, wf1, he, hde⟩ := setOp_hasExact lc hwf v1 r1 hr1
  have hev2 : cmp (dataOf (setOp cmp s v1 r1).nodes e) v2 = 0 := by
    rw [hde]
    exact h12
  obtain ⟨w2, hml, hlv, hhd, hlen, hh, hf, hdE, hoth⟩ := setOp_present lc wf1 v2 r2 he hev2
  refine ⟨?_, ?_, hlv, hlen, hh, hf⟩
  · rw [w2.lenOp_eq, wf1.lenOp_eq]
  · rw [searchOp_eq_some lc w2 he (by rw [hdE]; exact lc.refl v2), hdE]

/-- C3 witness at a concrete instance. -/
theorem set_update_semantics_witness :
    LawfulCmp intCmp ∧ Wf intCmp ((newList 2 : SkipList Int)) ∧ intCmp 5 5 = 0 ∧
    0 < ((newList 2 : SkipList Int)).maxLevel ∧
    UpdatePost intCmp (setOp intCmp ((newList 2 : SkipList Int)) 5 0)
      (setOp intCmp (setOp intCmp ((newList 2 : SkipList Int)) 5 0) 5 1) 5 :=
  ⟨intCmp_lawful, ⟨[], wfIds_newList intCmp 2 (by decide)⟩, by decide, by decide,
    set_update_semantics intCmp_lawful ((newList 2 : SkipList Int))
      ⟨[], wfIds_newList intCmp 2 (by decide)⟩ 5 5 0 1 (by decide) (by decide)⟩

/-- C4: after `Delete(k)`, `Search(k)` reports not-found; `Len()` drops by
exactly one when a value with key `k` was present and is unchanged when it was
absent. -/
theorem delete_correctness [Inhabited T] {cmp : T → T → Int} (lc : LawfulCmp cmp)
    (s : SkipList T) (hwf : Wf cmp s) (k : T) :
    searchOp cmp (deleteOp cmp s k) k = none ∧
    ((∃ x ∈ sortedOp s, cmp x k = 0) → lenOp (deleteOp cmp s k) + 1 = lenOp s) ∧
    ((∀ x ∈ sortedOp s, cmp x k ≠ 0) → lenOp (deleteOp cmp s k) = lenOp s) := by
  obtain ⟨ids, wf⟩ := hwf
  by_cases hp : ∃ x ∈ ids, cmp (dataOf s.nodes x) k = 0
  · obtain ⟨e2, B2, hB, het⟩ := (equal_mem_iff_head lc wf k).1 hp
    obtain ⟨w2, _, _, _, _, hd2⟩ := deleteOp_present lc wf k hB het
    have he2ids : e2 ∈ ids :=
      (geIds_sublist cmp s.nodes k ids).subset (by rw [hB]; simp)
    have he2B2 : e2 ∉ B2 := by
      have hnd : (e2 :: B2).Nodup := by
        rw [← hB]
        exact wf.ids_nodup.sublist (geIds_sublist cmp s.nodes k ids)
      exact (List.nodup_cons.1 hnd).1
    have habs2 : ∀ x ∈ ltIds cmp s.nodes k ids ++ B2,
        cmp (dataOf (deleteOp cmp s k).nodes x) k ≠ 0 := by
      intro x hx
      rw [hd2 x]
      rcases List.mem_append.1 hx with hA | hB2m
      · have := (mem_ltIds.1 hA).2
        omega
      · intro hcc
        have hxids : x ∈ ids := (geIds_sublist cmp s.nodes k ids).subset
          (by rw [hB]; exact List.mem_cons_of_mem _ hB2m)
        have hxe : x = e2 := equal_unique lc wf hxids he2ids hcc het
        rw [hxe] at hB2m
        exact he2B2 hB2m
    have hsplit : ids = ltIds cmp s.nodes k ids ++ e2 :: B2 := by
      have := sorted_filter_split lc s.nodes k ids wf.sorted
      rwa [hB] at this
    refine ⟨searchOp_eq_none lc w2 habs2, ?_, ?_⟩
    · intro _
      rw [w2.lenOp_eq, wf.lenOp_eq]
      conv_rhs => rw [hsplit]
      simp [List.length_append]
      omega
    · intro habs
      exfalso
      obtain ⟨x, hx, hxk⟩ := hp
      refine habs (dataOf s.nodes x) ?_ hxk
      rw [wf.sortedOp_eq]
      exact List.mem_map_of_mem _ hx
  · push_neg at hp
    rw [deleteOp_absent lc wf k hp]
    exact ⟨searchOp_eq_none lc wf hp, fun hex => absurd hex (by
      rintro ⟨x, hx, hxk⟩
      rw [wf.sortedOp_eq] at hx
      obtain ⟨id, hid, rfl⟩ := List.mem_map.1 hx
      exact hp id hid hxk), fun _ => rfl⟩

/-- C4 witness at a concrete instance. -/
theorem delete_correctness_witness :
    LawfulCmp intCmp ∧ Wf intCmp ((newList 2 : SkipList Int)) ∧
    (searchOp intCmp (deleteOp intCmp ((newList 2 : SkipList Int)) 3) 3 = none ∧
      ((∃ x ∈ sortedOp ((newList 2 : SkipList Int)), intCmp x 3 = 0) →
        lenOp (deleteOp intCmp ((newList 2 : SkipList Int)) 3) + 1 = lenOp ((newList 2 : SkipList Int))) ∧
      ((∀ x ∈ sortedOp ((newList 2 : SkipList Int)), intCmp x 3 ≠ 0) →
        lenOp (deleteOp intCmp ((newList 2 : SkipList Int)) 3) = lenOp ((newList 2 : SkipList Int)))) :=
  ⟨intCmp_lawful, ⟨[], wfIds_newList intCmp 2 (by decide)⟩,
    delete_correctness intCmp_lawful ((newList 2 : SkipList Int))
      ⟨[], wfIds_newList intCmp 2 (by decide)⟩ 3⟩

/-- C5: deleting an absent key is a no-op: the resulting state is literally
the previous state (every link, datum and the level included). -/
theorem delete_absent_noop [Inhabited T] {cmp : T → T → Int} (lc : LawfulCmp cmp)
    (s : SkipList T) (hwf : Wf cmp s) (k : T)
    (habs : ∀ x ∈ sortedOp s, cmp x k ≠ 0) :
    deleteOp cmp s k = s := by
  obtain ⟨ids, wf⟩ := hwf
  refine deleteOp_absent lc wf k ?_
  intro x hx
  refine habs (dataOf s.nodes x) ?_
  rw [wf.sortedOp_eq]
  exact List.mem_map_of_mem _ hx

/-- C5 witness at a concrete instance. -/
theorem delete_absent_noop_witness :
    LawfulCmp intCmp ∧ Wf intCmp ((newList 2 : SkipList Int)) ∧
    (∀ x ∈ sortedOp ((newList 2 : SkipList Int)), intCmp x 3 ≠ 0) ∧
    deleteOp intCmp ((newList 2 : SkipList Int)) 3 = (newList 2 : SkipList Int) :=
  ⟨intCmp_lawful, ⟨[], wfIds_newList intCmp 2 (by decide)⟩, by decide,
    delete_absent_noop intCmp_lawful ((newList 2 : SkipList Int))
      ⟨[], wfIds_newList intCmp 2 (by decide)⟩ 3 (by decide)⟩

/-- C6: `Search(target)` succeeds exactly on stored values whose key compares
equal to `target`: a hit returns a stored value equal to the target's key, a
present key guarantees a hit, and an absent key yields the not-found outcome
(`nil` value plus `ErrTargetNotFound`, modelled as `none`).  `searchOp` is a
pure function of the state, so it cannot mutate the list. -/
theorem search_found_iff [Inhabited T] {cmp : T → T → Int} (lc : LawfulCmp cmp)
    (s : SkipList T) (hwf : Wf cmp s) (t : T) :
    (∀ v, searchOp cmp s t = some v → v ∈ sortedOp s ∧ cmp v t = 0) ∧
    ((∃ v ∈ sortedOp s, cmp v t = 0) → ∃ v, searchOp cmp s t = some v) ∧
    ((∀ v ∈ sortedOp s, cmp v t ≠ 0) → searchOp cmp s t = none) := by
  obtain ⟨ids, wf⟩ := hwf
  refine ⟨?_, ?_, ?_⟩
  · intro v hv
    rw [searchOp_run lc wf t] at hv
    cases hg : geIds cmp s.nodes t ids with
    | nil =>
      rw [hg] at hv
      exact absurd hv (by simp)
    | cons e l2 =>
      rw [hg] at hv
      dsimp only at hv
      by_cases hc : cmp (dataOf s.nodes e) t = 0
      · rw [if_pos hc] at hv
        have hvd : dataOf s.nodes e = v := by
          simpa using hv
        have hemem : e ∈ ids :=
          (geIds_sublist cmp s.nodes t ids).subset (by rw [hg]; simp)
        constructor
        · rw [wf.sortedOp_eq, ← hvd]
          exact List.mem_map_of_mem _ hemem
        · rw [← hvd]
          exact hc
      · rw [if_neg hc] at hv
        exact absurd hv (by simp)
  · rintro ⟨v, hvmem, hvt⟩
    rw [wf.sortedOp_eq] at hvmem
    obtain ⟨id, hid, rfl⟩ := List.mem_map.1 hvmem
    exact ⟨_, searchOp_eq_some lc wf hid hvt⟩
  · intro habs
    refine searchOp_eq_none lc wf ?_
    intro x hx
    refine habs (dataOf s.nodes x) ?_
    rw [wf.sortedOp_eq]
    exact List.mem_map_of_mem _ hx

/-- C6 witness at a concrete instance. -/
theorem search_found_iff_witness :
    LawfulCmp intCmp ∧ Wf intCmp ((newList 2 : SkipList Int)) ∧
    ((∀ v, searchOp intCmp ((newList 2 : SkipList Int)) 1 = some v →
        v ∈ sortedOp ((newList 2 : SkipList Int)) ∧ intCmp v 1 = 0) ∧
      ((∃ v ∈ sortedOp ((newList 2 : SkipList Int)), intCmp v 1 = 0) →
        ∃ v, searchOp intCmp ((newList 2 : SkipList Int)) 1 = some v) ∧
      ((∀ v ∈ sortedOp ((newList 2 : SkipList Int)), intCmp v 1 ≠ 0) →
        searchOp intCmp ((newList 2 : SkipList Int)) 1 = none)) :=
  ⟨intCmp_lawful, ⟨[], wfIds_newList intCmp 2 (by decide)⟩,
    search_found_iff intCmp_lawful ((newList 2 : SkipList Int))
      ⟨[], wfIds_newList intCmp 2 (by decide)⟩ 1⟩

/-- C7: on a list of `n = Len()` elements, the iterator from `Iterate()` is
valid for exactly the first `n` positions, invalid after the `n`-th `Next()`,
and the `Data()` values visited are exactly `Sorted()`. -/
theorem iterator_termination [Inhabited T] {cmp : T → T → Int} (lc : LawfulCmp cmp)
    (s : SkipList T) (hwf : Wf cmp s) :
    (∀ k, k < lenOp s → (iterSteps s.nodes k (iterateOp s)).valid = true) ∧
    (iterSteps s.nodes (lenOp s) (iterateOp s)).valid = false ∧
    iterVisit s.nodes (lenOp s) (iterateOp s) = sortedOp s := by
  obtain ⟨ids, wf⟩ := hwf
  have hch := iter_chain s.nodes ids 0 wf.chain0
  have hIt : iterateOp s = { current := fwd s.nodes 0 0 } := by
    unfold iterateOp
    rw [wf.header0]
  rw [hIt, wf.lenOp_eq, wf.sortedOp_eq]
  refine ⟨hch.1, ?_, hch.2.2⟩
  rw [hch.2.1]
  rfl

/-- C7 witness at a concrete instance (one element inserted). -/
theorem iterator_termination_witness :
    LawfulCmp intCmp ∧ Wf intCmp (setOp intCmp ((newList 2 : SkipList Int)) 5 0) ∧
    ((∀ k, k < lenOp (setOp intCmp ((newList 2 : SkipList Int)) 5 0) →
        (iterSteps (setOp intCmp ((newList 2 : SkipList Int)) 5 0).nodes k
          (iterateOp (setOp intCmp ((newList 2 : SkipList Int)) 5 0))).valid = true) ∧
      (iterSteps (setOp intCmp ((newList 2 : SkipList Int)) 5 0).nodes
        (lenOp (setOp intCmp ((newList 2 : SkipList Int)) 5 0))
        (iterateOp (setOp intCmp ((newList 2 : SkipList Int)) 5 0))).valid = false ∧
      iterVisit (setOp intCmp ((newList 2 : SkipList Int)) 5 0).nodes
        (lenOp (setOp intCmp ((newList 2 : SkipList Int)) 5 0))
        (iterateOp (setOp intCmp ((newList 2 : SkipList Int)) 5 0)) =
        sortedOp (setOp intCmp ((newList 2 : SkipList Int)) 5 0)) :=
  ⟨intCmp_lawful,
    (setOp_wf intCmp_lawful ⟨[], wfIds_newList intCmp 2 (by decide)⟩ 5 0 (by decide)).1,
    iterator_termination intCmp_lawful (setOp intCmp ((newList 2 : SkipList Int)) 5 0)
      (setOp_wf intCmp_lawful ⟨[], wfIds_newList intCmp 2 (by decide)⟩ 5 0 (by decide)).1⟩

/-- I4 as an observable property of a state. -/
def LevelInv [Inhabited T] (s : SkipList T) : Prop :=
  (∀ i, s.level < i → fwd s.nodes s.header i = none) ∧
  (s.level = 0 ∨ fwd s.nodes s.header s.level ≠ none)

/-- C8: in every state reachable by `Set`/`Delete` from a fresh list, the
current level is the highest level with a non-nil header forward pointer
(floored at 0); moreover `Set` raises the level only when the drawn level
exceeds it, and `Delete` never raises it. -/
theorem level_invariant [Inhabited T] {cmp : T → T → Int} (lc : LawfulCmp cmp)
    (m : Nat) (hm : 1 ≤ m) (ops : List (SLOp T)) (hops : opsOk m ops) :
    LevelInv (execOps cmp ops ((newList m : SkipList T))) ∧
    (∀ (s : SkipList T) (v : T) (r : Nat),
      (setOp cmp s v r).level = s.level ∨ (s.level < r ∧ (setOp cmp s v r).level = r)) ∧
    (∀ (s : SkipList T) (k : T), (deleteOp cmp s k).level ≤ s.level) := by
  refine ⟨?_, setOp_level_raise cmp, deleteOp_level_le cmp⟩
  have hwf0 : Wf cmp ((newList m : SkipList T)) := ⟨[], wfIds_newList cmp m hm⟩
  obtain ⟨⟨ids, wf⟩, _⟩ := execOps_wf lc ops ((newList m : SkipList T)) hwf0 hops
  exact wf.levelInv

/-- C8 witness at a concrete instance. -/
theorem level_invariant_witness :
    LawfulCmp intCmp ∧ 1 ≤ 2 ∧ opsOk 2 [SLOp.set (4 : Int) 1, SLOp.del (4 : Int)] ∧
    (LevelInv (execOps intCmp [SLOp.set (4 : Int) 1, SLOp.del (4 : Int)]
        ((newList 2 : SkipList Int))) ∧
      (∀ (s : SkipList Int) (v : Int) (r : Nat),
        (setOp intCmp s v r).level = s.level ∨
          (s.level < r ∧ (setOp intCmp s v r).level = r)) ∧
      (∀ (s : SkipList Int) (k : Int), (deleteOp intCmp s k).level ≤ s.level)) :=
  ⟨intCmp_lawful, by decide,
    by
      intro op hop
      fin_cases hop
      · show 1 < 2
        decide
      · trivial,
    level_invariant intCmp_lawful 2 (by decide) [SLOp.set (4 : Int) 1, SLOp.del (4 : Int)]
      (by
        intro op hop
        fin_cases hop
        · show 1 < 2
          decide
        · trivial)⟩

/-- C9: `Data()` is not guarded: it dereferences the current node
unconditionally, so on an invalid iterator it hits the nil pointer (modelled
as the `none` outcome) rather than returning a value, and it yields a defined
value exactly when `Valid()` holds. -/
theorem iterator_data_unguarded [Inhabited T] (h : Heap T) (it : Iterator) :
    (dataOp h it).isSome = it.valid ∧ (dataOp h it = none ↔ it.valid = false) := by
  cases it with
  | mk current =>
    cases current with
    | none => exact ⟨rfl, by simp [dataOp, Iterator.valid]⟩
    | some id => exact ⟨rfl, by simp [dataOp, Iterator.valid]⟩

/-- C10: `Len()` always equals the length of `Sorted()`: both are computed by
the same level-0 chain traversal with the same fuel, on every state. -/
theorem len_eq_sorted_length [Inhabited T] (s : SkipList T) :
    lenOp s = (sortedOp s).length := by
  unfold lenOp sortedOp
  rw [countFrom_eq_length, List.length_map]

end Skiplist
